import Mathlib

/-!
Shallow embedding of the `bin` package: a binary stream `Reader` with a
lookahead (peek) buffer and a binary stream `Writer`, both tracking a
position counter and a selectable byte order.

Bytes are modelled as `Nat` (values below 256 where produced by the code).
A byte source (`io.Reader`) is modelled as the remaining byte list plus a
chunking pattern dictating how many bytes each `Read` call may return,
which captures sources that perform short reads.  A byte sink
(`io.Writer`) is modelled as the accepted byte list plus a script of
per-call acceptance caps and error results, which captures sinks that
accept fewer bytes than offered.  A Go runtime fault (dereference of an
unset handle) is modelled by an `Option.none` result of the operation.
-/

set_option maxHeartbeats 4000000
set_option maxRecDepth 4096

namespace Bin

abbrev Byte := Nat

/-- Error conditions surfaced by the reader and writer operations.
`eof` models `io.EOF`, `unexpectedEOF` models `io.ErrUnexpectedEOF`,
`nilSource` and `nilSink` model the "reader is nil" / "writer is nil"
errors, `noByteOrder` models "ByteOrder is not set", `negativeLength`
models the "negative length" error of `ZeroFill`. -/
inductive Err where
  | eof
  | unexpectedEOF
  | nilSource
  | nilSink
  | noByteOrder
  | negativeLength
deriving DecidableEq, Repr

/-- Model of an `io.Reader` byte source: `data` is the byte stream not yet
handed out, `pattern` caps how many bytes each successive `Read` call may
return (an exhausted or empty pattern means the call returns as much as
requested).  Caps are forced to at least 1 so that a call on a non-empty
source always makes progress, as `io.ReadFull` requires of a usable
source. -/
structure Src where
  data : List Byte
  pattern : List Nat
deriving DecidableEq, Repr

/-- Model of a single `Read` call on a byte source: returns the bytes read,
an optional error and the source after the call.  An exhausted source
reports `eof`; otherwise up to `min cap (min n data.length)` bytes are
taken from the front of `data`. -/
def srcRead (s : Src) (n : Nat) : List Byte × Option Err × Src :=
  match s.data with
  | [] => ([], some .eof, s)
  | _ :: _ =>
    let cap := match s.pattern with
      | [] => n
      | c :: _ => min (max 1 c) n
    let k := min cap s.data.length
    (s.data.take k, none, ⟨s.data.drop k, s.pattern.tail⟩)

/-- Model of the loop inside `io.ReadFull`/`io.ReadAtLeast`: repeatedly call
`Read` until `n` bytes are gathered or the source reports an error.  The
error is returned untransformed here; `readFull` applies the final
`ReadAtLeast` error adjustment.  The recursion is structural on `fuel`; a
fuel of `n` always suffices, because every call on a non-empty source
returns at least one byte, so the zero-fuel branch is unreachable from
`readFullAux`. -/
def readFullGo (fuel : Nat) (s : Src) (n : Nat) : List Byte × Option Err × Src :=
  match fuel with
  | 0 => ([], none, s)
  | fuel + 1 =>
    if n = 0 then ([], none, s)
    else
      match srcRead s n with
      | (_, some e, s1) => ([], some e, s1)
      | (chunk, none, s1) =>
        let rest := readFullGo fuel s1 (n - chunk.length)
        (chunk ++ rest.1, rest.2.1, rest.2.2)

/-- The `io.ReadFull` gathering loop at its sufficient fuel `n`. -/
def readFullAux (s : Src) (n : Nat) : List Byte × Option Err × Src :=
  readFullGo n s n

/-- Model of `io.ReadFull`: gather exactly `n` bytes, returning the bytes
actually read together with the adjusted error: success when all `n` bytes
arrived, `unexpectedEOF` when the source hit `eof` after yielding at least
one byte but fewer than `n`, and the raw error otherwise. -/
def readFull (s : Src) (n : Nat) : List Byte × Option Err × Src :=
  match readFullAux s n with
  | (out, some .eof, s1) => if out.length = 0 then ([], some .eof, s1)
                            else (out, some .unexpectedEOF, s1)
  | (out, e, s1) => (out, e, s1)

/-- Overwrite the segment of `l` starting at `off` with `xs`, keeping the
rest; models `copy(buf[off:off+len(xs)], xs)` on a Go slice. -/
def overwriteAt (l : List Byte) (off : Nat) (xs : List Byte) : List Byte :=
  l.take off ++ xs ++ l.drop (off + xs.length)

/-- Byte order (endianness) selector, modelling `binary.LittleEndian` and
`binary.BigEndian`. -/
inductive ByteOrder where
  | le
  | be
deriving DecidableEq, Repr

/-- Model of `PutUint16`: encode the low 16 bits of `v` as two bytes. -/
def ByteOrder.putUint16 : ByteOrder → Nat → List Byte
  | .le, v => [v % 256, v / 256 % 256]
  | .be, v => [v / 256 % 256, v % 256]

/-- Model of `Uint16`: decode two bytes into an unsigned 16-bit value. -/
def ByteOrder.uint16 : ByteOrder → List Byte → Nat
  | .le, bs => bs.getD 0 0 + 256 * bs.getD 1 0
  | .be, bs => bs.getD 1 0 + 256 * bs.getD 0 0

/-- Model of `PutUint32`: encode the low 32 bits of `v` as four bytes. -/
def ByteOrder.putUint32 : ByteOrder → Nat → List Byte
  | .le, v => [v % 256, v / 256 % 256, v / 65536 % 256, v / 16777216 % 256]
  | .be, v => [v / 16777216 % 256, v / 65536 % 256, v / 256 % 256, v % 256]

/-- Model of `Uint32`: decode four bytes into an unsigned 32-bit value. -/
def ByteOrder.uint32 : ByteOrder → List Byte → Nat
  | .le, bs => bs.getD 0 0 + 256 * bs.getD 1 0 + 65536 * bs.getD 2 0
               + 16777216 * bs.getD 3 0
  | .be, bs => bs.getD 3 0 + 256 * bs.getD 2 0 + 65536 * bs.getD 1 0
               + 16777216 * bs.getD 0 0

/-- Model of `PutUint64`: encode the low 64 bits of `v` as eight bytes. -/
def ByteOrder.putUint64 : ByteOrder → Nat → List Byte
  | .le, v => [v % 256, v / 256 % 256, v / 65536 % 256, v / 16777216 % 256,
               v / 4294967296 % 256, v / 1099511627776 % 256,
               v / 281474976710656 % 256, v / 72057594037927936 % 256]
  | .be, v => [v / 72057594037927936 % 256, v / 281474976710656 % 256,
               v / 1099511627776 % 256, v / 4294967296 % 256,
               v / 16777216 % 256, v / 65536 % 256, v / 256 % 256, v % 256]

/-- Model of `Uint64`: decode eight bytes into an unsigned 64-bit value. -/
def ByteOrder.uint64 : ByteOrder → List Byte → Nat
  | .le, bs => bs.getD 0 0 + 256 * bs.getD 1 0 + 65536 * bs.getD 2 0
               + 16777216 * bs.getD 3 0 + 4294967296 * bs.getD 4 0
               + 1099511627776 * bs.getD 5 0 + 281474976710656 * bs.getD 6 0
               + 72057594037927936 * bs.getD 7 0
  | .be, bs => bs.getD 7 0 + 256 * bs.getD 6 0 + 65536 * bs.getD 5 0
               + 16777216 * bs.getD 4 0 + 4294967296 * bs.getD 3 0
               + 1099511627776 * bs.getD 2 0 + 281474976710656 * bs.getD 1 0
               + 72057594037927936 * bs.getD 0 0

/-- Model of `bin.Reader`: the `binaryBase` fields (`pos`, `bo`) are
flattened into the structure; the temporary scratch buffers (`_1kb` and
the `i`/`i64`/`err` temporaries) carry no observable state and are not
modelled, except that destinations of reads are modelled by the byte
lists the operations return.  `source` may be unset (`none`), modelling a
nil `io.Reader`. -/
structure Reader where
  pos : Int
  bo : Option ByteOrder
  source : Option Src
  peekBuffer : List Byte
  nPeeked : Nat
  peekPos : Nat
deriving DecidableEq, Repr

/-- Model of `Reader.numUnusedPeekedBytes`: bytes peeked but not yet
consumed by a real read. -/
def Reader.numUnusedPeekedBytes (b : Reader) : Nat :=
  b.nPeeked - b.peekPos

/-- Pending peeked bytes: the region of the peek buffer between the
consumed offset `peekPos` and the filled length `nPeeked`. -/
def Reader.pendingBytes (b : Reader) : List Byte :=
  (b.peekBuffer.drop b.peekPos).take (b.nPeeked - b.peekPos)

/-- Bytes remaining in the underlying source (empty when unset). -/
def Reader.srcData (b : Reader) : List Byte :=
  match b.source with
  | none => []
  | some s => s.data

/-- Logical remaining stream of the reader: pending peeked bytes followed
by the bytes still in the source. -/
def Reader.stream (b : Reader) : List Byte :=
  b.pendingBytes ++ b.srcData

/-- Number of bytes the reader can still deliver. -/
def Reader.avail (b : Reader) : Nat :=
  b.stream.length

/-- Structural well-formedness of the peek bookkeeping, the invariant
`0 ≤ peekPos ≤ nPeeked ≤ len(peekBuffer)` maintained by the code. -/
def Reader.WF (b : Reader) : Prop :=
  b.peekPos ≤ b.nPeeked ∧ b.nPeeked ≤ b.peekBuffer.length

instance (b : Reader) : Decidable b.WF := by
  unfold Reader.WF; infer_instance

/-- Model of `Reader.Read` (the raw `io.Reader` method): a single call to
`source.Read`, advancing `pos` by the count the source reports.  There is
no nil-source check; the `none` result models the nil-dereference runtime
fault that Go raises when `source` is unset. -/
def Reader.rawRead (b : Reader) (n : Nat) :
    Option (List Byte × Option Err × Reader) :=
  match b.source with
  | none => none
  | some s =>
    match srcRead s n with
    | (chunk, e, s1) =>
      some (chunk, e, { b with source := some s1,
                               pos := b.pos + chunk.length })

/-- Model of `Reader.ReadBytes` on a destination of length `n`: returns
the error, the bytes written into the destination, and the reader after
the call.  Mirrors the source: nil check first, then the zero-length
shortcut, then the three peek-merge branches. -/
def Reader.readBytes (b : Reader) (n : Nat) :
    Option Err × List Byte × Reader :=
  match b.source with
  | none => (some .nilSource, [], b)
  | some s =>
    if n = 0 then (none, [], b)
    else if 0 < b.numUnusedPeekedBytes then
      if n ≤ b.numUnusedPeekedBytes then
        (none, (b.peekBuffer.drop b.peekPos).take n,
         { b with peekPos := b.peekPos + n, pos := b.pos + n })
      else
        match readFull s (n - b.numUnusedPeekedBytes) with
        | (chunk, e, s1) =>
          (e, (b.peekBuffer.drop b.peekPos).take b.numUnusedPeekedBytes ++ chunk,
           { b with source := some s1, peekPos := b.nPeeked,
                    pos := b.pos + (b.numUnusedPeekedBytes + chunk.length) })
    else
      match readFull s n with
      | (chunk, e, s1) =>
        (e, chunk, { b with source := some s1,
                            pos := b.pos + chunk.length })

/-- Model of the peek-buffer growth step inside `Reader.Peek`: when the
buffer cannot hold `nPeeked + nRead` bytes it is extended, by 64 bytes
when the shortfall is at most 64 (the amortizing minimum increment),
otherwise by exactly the shortfall. -/
def Reader.grownPeekBuffer (b : Reader) (nRead : Nat) : List Byte :=
  if 0 < (b.nPeeked : Int) + nRead - b.peekBuffer.length then
    (if (b.nPeeked : Int) + nRead - b.peekBuffer.length ≤ 64 then
       b.peekBuffer ++ List.replicate 64 0
     else
       b.peekBuffer ++
         List.replicate ((b.nPeeked : Int) + nRead - b.peekBuffer.length).toNat 0)
  else b.peekBuffer

/-- Model of `Reader.Peek` on a destination of length `n`: returns the
error, the bytes written into the destination, and the reader after the
call.  Mirrors the source: nil check, zero shortcut, service from pending
bytes when they suffice, otherwise copy the pending bytes into the
destination, grow the peek buffer if needed (via `grownPeekBuffer`),
`io.ReadFull` the remainder into the buffer positions following the
fetched content, and only on success record it as peeked and copy it to
the destination.  `pos` is never changed, and on failure `nPeeked` and
`peekPos` are not changed either. -/
def Reader.peek (b : Reader) (n : Nat) : Option Err × List Byte × Reader :=
  match b.source with
  | none => (some .nilSource, [], b)
  | some s =>
    if n = 0 then (none, [], b)
    else if n ≤ b.numUnusedPeekedBytes then
      (none, (b.peekBuffer.drop b.peekPos).take n, b)
    else
      match readFull s (n - b.numUnusedPeekedBytes) with
      | (chunk, some e, s1) =>
        (some e, (b.peekBuffer.drop b.peekPos).take b.numUnusedPeekedBytes,
         { b with source := some s1,
                  peekBuffer :=
                    overwriteAt (b.grownPeekBuffer (n - b.numUnusedPeekedBytes))
                      b.nPeeked chunk })
      | (chunk, none, s1) =>
        (none,
         (b.peekBuffer.drop b.peekPos).take b.numUnusedPeekedBytes ++ chunk,
         { b with source := some s1,
                  peekBuffer :=
                    overwriteAt (b.grownPeekBuffer (n - b.numUnusedPeekedBytes))
                      b.nPeeked chunk,
                  nPeeked := b.nPeeked + (n - b.numUnusedPeekedBytes) })

/-- Model of `Reader.ReadByte`: read one byte through `ReadBytes` into the
scratch buffer and return its first byte.  The middle component is the
number of bytes consumed from the stream. -/
def Reader.readByte (b : Reader) : Except Err Byte × Nat × Reader :=
  match b.readBytes 1 with
  | (some e, d, b1) => (.error e, d.length, b1)
  | (none, d, b1) => (.ok (d.headD 0), d.length, b1)

/-- Model of `Reader.ReadUint16`: nil check, byte-order check, then two
bytes through `ReadBytes`, decoded per the byte order. -/
def Reader.readUint16 (b : Reader) : Except Err Nat × Nat × Reader :=
  match b.source with
  | none => (.error .nilSource, 0, b)
  | some _ =>
    match b.bo with
    | none => (.error .noByteOrder, 0, b)
    | some bo =>
      match b.readBytes 2 with
      | (some e, d, b1) => (.error e, d.length, b1)
      | (none, d, b1) => (.ok (bo.uint16 d), d.length, b1)

/-- Model of `Reader.ReadUint32`. -/
def Reader.readUint32 (b : Reader) : Except Err Nat × Nat × Reader :=
  match b.source with
  | none => (.error .nilSource, 0, b)
  | some _ =>
    match b.bo with
    | none => (.error .noByteOrder, 0, b)
    | some bo =>
      match b.readBytes 4 with
      | (some e, d, b1) => (.error e, d.length, b1)
      | (none, d, b1) => (.ok (bo.uint32 d), d.length, b1)

/-- Model of `Reader.ReadUint64`. -/
def Reader.readUint64 (b : Reader) : Except Err Nat × Nat × Reader :=
  match b.source with
  | none => (.error .nilSource, 0, b)
  | some _ =>
    match b.bo with
    | none => (.error .noByteOrder, 0, b)
    | some bo =>
      match b.readBytes 8 with
      | (some e, d, b1) => (.error e, d.length, b1)
      | (none, d, b1) => (.ok (bo.uint64 d), d.length, b1)

/-- Model of `Reader.ReadFloat32`: `math.Float32frombits` is a pure
reinterpretation of the 32-bit pattern, so float values are modelled by
their bit patterns and the operation returns the decoded 32-bit
pattern. -/
def Reader.readFloat32 (b : Reader) : Except Err Nat × Nat × Reader :=
  match b.source with
  | none => (.error .nilSource, 0, b)
  | some _ =>
    match b.bo with
    | none => (.error .noByteOrder, 0, b)
    | some bo =>
      match b.readBytes 4 with
      | (some e, d, b1) => (.error e, d.length, b1)
      | (none, d, b1) => (.ok (bo.uint32 d), d.length, b1)

/-- Model of `Reader.ReadFloat64`: float64 values are modelled by their
64-bit patterns (`math.Float64frombits` is a pure reinterpretation). -/
def Reader.readFloat64 (b : Reader) : Except Err Nat × Nat × Reader :=
  match b.source with
  | none => (.error .nilSource, 0, b)
  | some _ =>
    match b.bo with
    | none => (.error .noByteOrder, 0, b)
    | some bo =>
      match b.readBytes 8 with
      | (some e, d, b1) => (.error e, d.length, b1)
      | (none, d, b1) => (.ok (bo.uint64 d), d.length, b1)

/-- Model of the chunking loop of `Reader.Discard`: read 1024 bytes at a
time into the scratch buffer while more than 1024 bytes remain, then read
the remainder.  The loop runs exactly `(rem - 1) / 1024` full-chunk
iterations before the final read, so the recursion is structural on that
iteration count `k` while `rem` tracks the remaining byte count exactly
as the loop variable does.  Returns the error, the number of bytes
consumed, and the reader after the call. -/
def Reader.discardLoop (b : Reader) : Nat → Nat → Option Err × Nat × Reader
  | 0, rem =>
    match b.readBytes rem with
    | (e, d, b1) => (e, d.length, b1)
  | k + 1, rem =>
    match b.readBytes 1024 with
    | (some e, d, b1) => (some e, d.length, b1)
    | (none, d, b1) =>
      match b1.discardLoop k (rem - 1024) with
      | (e, k2, b2) => (e, d.length + k2, b2)

/-- Model of `Reader.Discard` for a non-negative count (the code does not
support negative counts): nil check, then the 1024-byte shortcut or the
chunking loop. -/
def Reader.discard (b : Reader) (n : Nat) : Option Err × Nat × Reader :=
  match b.source with
  | none => (some .nilSource, 0, b)
  | some _ =>
    if n ≤ 1024 then
      match b.readBytes n with
      | (e, d, b1) => (e, d.length, b1)
    else b.discardLoop ((n - 1) / 1024) n

/-- Model of `NewReader` over an in-memory source (`NewReaderBytes`): the
peek buffer is initially 64 bytes, the counters zero.  A `bytes.Reader`
never performs short reads, hence the empty chunking pattern. -/
def NewReaderBytes (data : List Byte) (bo : Option ByteOrder) : Reader :=
  { pos := 0, bo := bo, source := some ⟨data, []⟩,
    peekBuffer := List.replicate 64 0, nPeeked := 0, peekPos := 0 }

/-- Reader operations for reasoning about finite call sequences. -/
inductive Op where
  | readByte
  | readBytes (n : Nat)
  | readUint16
  | readUint32
  | readUint64
  | readFloat32
  | readFloat64
  | discard (n : Nat)
  | peek (n : Nat)
deriving DecidableEq, Repr

/-- Run one operation, returning the error, the number of bytes the
operation delivered to a real read (zero for `peek`, which delivers to no
real read), and the reader after the call. -/
def Reader.runOp (b : Reader) : Op → Option Err × Nat × Reader
  | .readByte => match b.readByte with | (.ok _, k, b1) => (none, k, b1)
                                       | (.error e, k, b1) => (some e, k, b1)
  | .readBytes n => match b.readBytes n with | (e, d, b1) => (e, d.length, b1)
  | .readUint16 => match b.readUint16 with | (.ok _, k, b1) => (none, k, b1)
                                           | (.error e, k, b1) => (some e, k, b1)
  | .readUint32 => match b.readUint32 with | (.ok _, k, b1) => (none, k, b1)
                                           | (.error e, k, b1) => (some e, k, b1)
  | .readUint64 => match b.readUint64 with | (.ok _, k, b1) => (none, k, b1)
                                           | (.error e, k, b1) => (some e, k, b1)
  | .readFloat32 => match b.readFloat32 with | (.ok _, k, b1) => (none, k, b1)
                                             | (.error e, k, b1) => (some e, k, b1)
  | .readFloat64 => match b.readFloat64 with | (.ok _, k, b1) => (none, k, b1)
                                             | (.error e, k, b1) => (some e, k, b1)
  | .discard n => b.discard n
  | .peek n => match b.peek n with | (e, _, b1) => (e, 0, b1)

/-- Run a finite sequence of operations, accumulating the total number of
bytes delivered to real reads. -/
def Reader.runOps (b : Reader) : List Op → Nat × Reader
  | [] => (0, b)
  | op :: rest =>
    match b.runOp op with
    | (_, k, b1) =>
      match b1.runOps rest with
      | (tot, b2) => (k + tot, b2)

/-- Model of an `io.Writer` byte sink: `accepted` collects the bytes the
sink has accepted so far; `script` dictates, per call, how many bytes the
sink accepts at most and which error it reports (an exhausted or empty
script means the call accepts everything offered without error, which is
how an in-memory `bytes.Buffer` sink behaves). -/
structure Sink where
  accepted : List Byte
  script : List (Nat × Option Err)
deriving DecidableEq, Repr

/-- Model of a single `Write` call on a byte sink: returns the count the
sink reports as accepted, an optional error and the sink after the
call. -/
def Sink.write (s : Sink) (p : List Byte) : Nat × Option Err × Sink :=
  match s.script with
  | [] => (p.length, none, ⟨s.accepted ++ p, []⟩)
  | (c, e) :: rest =>
    let k := min c p.length
    (k, e, ⟨s.accepted ++ p.take k, rest⟩)

/-- Model of `bin.Writer`: the `binaryBase` fields are flattened as for
`Reader`.  `dest` may be unset (`none`), modelling a nil `io.Writer`. -/
structure Writer where
  pos : Int
  bo : Option ByteOrder
  dest : Option Sink
deriving DecidableEq, Repr

/-- Model of `Writer.Write` (the raw `io.Writer` method): a zero-length
shortcut, then a single call to `dest.Write`, advancing `pos` by the
count the sink reports.  There is no nil-sink check after the shortcut;
the `none` result models the nil-dereference runtime fault. -/
def Writer.write (w : Writer) (p : List Byte) :
    Option (Nat × Option Err × Writer) :=
  if p.length = 0 then some (0, none, w)
  else
    match w.dest with
    | none => none
    | some d =>
      match d.write p with
      | (k, e, d1) =>
        some (k, e, { w with dest := some d1, pos := w.pos + k })

/-- Model of `Writer.WriteBytes`: nil check, zero-length shortcut, then a
single call to `dest.Write`; `pos` advances by the count the sink
reports, and the sink error (if any) is surfaced verbatim. -/
def Writer.writeBytes (w : Writer) (src : List Byte) : Option Err × Writer :=
  match w.dest with
  | none => (some .nilSink, w)
  | some d =>
    if src.length = 0 then (none, w)
    else
      match d.write src with
      | (k, e, d1) => (e, { w with dest := some d1, pos := w.pos + k })

/-- Model of `Writer.WriteByte`: nil check, then one byte through
`WriteBytes`. -/
def Writer.writeByte (w : Writer) (c : Byte) : Option Err × Writer :=
  match w.dest with
  | none => (some .nilSink, w)
  | some _ => w.writeBytes [c]

/-- Model of `Writer.WriteUint16`: nil check, byte-order check, then the
two encoded bytes through `WriteBytes`. -/
def Writer.writeUint16 (w : Writer) (v : Nat) : Option Err × Writer :=
  match w.dest with
  | none => (some .nilSink, w)
  | some _ =>
    match w.bo with
    | none => (some .noByteOrder, w)
    | some bo => w.writeBytes (bo.putUint16 v)

/-- Model of `Writer.WriteUint32`. -/
def Writer.writeUint32 (w : Writer) (v : Nat) : Option Err × Writer :=
  match w.dest with
  | none => (some .nilSink, w)
  | some _ =>
    match w.bo with
    | none => (some .noByteOrder, w)
    | some bo => w.writeBytes (bo.putUint32 v)

/-- Model of `Writer.WriteUint64`. -/
def Writer.writeUint64 (w : Writer) (v : Nat) : Option Err × Writer :=
  match w.dest with
  | none => (some .nilSink, w)
  | some _ =>
    match w.bo with
    | none => (some .noByteOrder, w)
    | some bo => w.writeBytes (bo.putUint64 v)

/-- Model of `Writer.WriteFloat32`: float values are modelled by their bit
patterns (`math.Float32bits` is a pure reinterpretation), so the argument
is the 32-bit pattern. -/
def Writer.writeFloat32 (w : Writer) (bits : Nat) : Option Err × Writer :=
  match w.dest with
  | none => (some .nilSink, w)
  | some _ =>
    match w.bo with
    | none => (some .noByteOrder, w)
    | some bo => w.writeBytes (bo.putUint32 bits)

/-- Model of `Writer.WriteFloat64`: the argument is the 64-bit pattern of
the float value (`math.Float64bits` is a pure reinterpretation). -/
def Writer.writeFloat64 (w : Writer) (bits : Nat) : Option Err × Writer :=
  match w.dest with
  | none => (some .nilSink, w)
  | some _ =>
    match w.bo with
    | none => (some .noByteOrder, w)
    | some bo => w.writeBytes (bo.putUint64 bits)

/-- Model of the chunking loop of `Writer.ZeroFill`: write 1024 zero bytes
at a time while more than 1024 remain, then write the remainder.  As for
`Reader.discardLoop`, the loop runs exactly `(rem - 1) / 1024` full-chunk
iterations before the final write, so the recursion is structural on that
iteration count `k`. -/
def Writer.zeroFillLoop (w : Writer) : Nat → Nat → Option Err × Writer
  | 0, rem => w.writeBytes (List.replicate rem 0)
  | k + 1, rem =>
    match w.writeBytes (List.replicate 1024 0) with
    | (some e, w1) => (some e, w1)
    | (none, w1) => w1.zeroFillLoop k (rem - 1024)

/-- Model of `Writer.ZeroFill`: nil check, explicit rejection of a
negative count before any write attempt, zero shortcut, then either a
single write of at most 1024 zero bytes or the chunking loop. -/
def Writer.zeroFill (w : Writer) (n : Int) : Option Err × Writer :=
  match w.dest with
  | none => (some .nilSink, w)
  | some _ =>
    if n < 0 then (some .negativeLength, w)
    else if n = 0 then (none, w)
    else if n ≤ 1024 then w.writeBytes (List.replicate n.toNat 0)
    else w.zeroFillLoop ((n.toNat - 1) / 1024) n.toNat

/-- Model of `NewWriter` over a capturing in-memory sink. -/
def NewWriterSink (d : Sink) (bo : Option ByteOrder) : Writer :=
  { pos := 0, bo := bo, dest := some d }

/-- Model of `binaryBase.GetPosition` for the reader. -/
def Reader.getPosition (b : Reader) : Int := b.pos

/-- Model of `binaryBase.GetPosition` for the writer. -/
def Writer.getPosition (w : Writer) : Int := w.pos

/-! ### Properties of the source model and of `readFull` -/

theorem srcRead_nil (s : Src) (hd : s.data = []) (n : Nat) :
    srcRead s n = ([], some .eof, s) := by
  unfold srcRead
  rw [hd]

theorem srcRead_cons (s : Src) (n : Nat) (hn : 0 < n) (hd : s.data ≠ []) :
    ∃ k, 0 < k ∧ k ≤ n ∧ k ≤ s.data.length ∧
      srcRead s n = (s.data.take k, none, ⟨s.data.drop k, s.pattern.tail⟩) := by
  obtain ⟨a, as, hdata⟩ : ∃ a as, s.data = a :: as := by
    cases h : s.data with
    | nil => exact absurd h hd
    | cons a as => exact ⟨a, as, rfl⟩
  unfold srcRead
  rw [hdata]
  cases hpat : s.pattern with
  | nil =>
    refine ⟨min n (a :: as).length, ?_, ?_, ?_, ?_⟩
    · simp; omega
    · omega
    · omega
    · simp [hdata, hpat]
  | cons c cs =>
    refine ⟨min (min (max 1 c) n) (a :: as).length, ?_, ?_, ?_, ?_⟩
    · simp; omega
    · omega
    · omega
    · simp [hdata, hpat]

theorem readFullGo_spec (fuel : Nat) : ∀ (s : Src) (n : Nat), n ≤ fuel →
    (readFullGo fuel s n).1 = s.data.take (min n s.data.length) ∧
    (readFullGo fuel s n).2.2.data = s.data.drop (min n s.data.length) ∧
    ((readFullGo fuel s n).2.1 = none ↔ n ≤ s.data.length) ∧
    ((readFullGo fuel s n).2.1 = none ∨
      (readFullGo fuel s n).2.1 = some .eof) := by
  induction fuel using Nat.strong_induction_on with
  | _ fuel ih =>
    intro s n hfuel
    cases fuel with
    | zero =>
      have hn0 : n = 0 := by omega
      subst hn0
      simp [readFullGo]
    | succ fuel =>
    by_cases h0 : n = 0
    · subst h0; simp [readFullGo]
    · simp only [readFullGo]
      rw [if_neg h0]
      split
      next e s1 h2 =>
        cases hd : s.data with
        | nil =>
          rw [srcRead_nil s hd n] at h2
          obtain ⟨rfl, rfl⟩ : Err.eof = e ∧ s = s1 := by
            constructor <;> [exact congrArg (·.2.1.getD .eof) h2;
                            exact congrArg (·.2.2) h2]
          simp [hd]
          omega
        | cons a as =>
          obtain ⟨k, hk1, hk2, hk3, heq⟩ :=
            srcRead_cons s n (by omega) (by rw [hd]; simp)
          rw [heq] at h2
          exact absurd (congrArg (·.2.1) h2) (by simp)
      next chunk s1 h2 =>
        have hd : s.data ≠ [] := by
          intro hnil
          rw [srcRead_nil s hnil n] at h2
          exact absurd (congrArg (·.2.1) h2) (by simp)
        obtain ⟨k, hk1, hk2, hk3, heq⟩ := srcRead_cons s n (by omega) hd
        rw [heq] at h2
        obtain ⟨rfl, rfl⟩ : s.data.take k = chunk ∧
            (⟨s.data.drop k, s.pattern.tail⟩ : Src) = s1 := by
          constructor <;> [exact congrArg (·.1) h2; exact congrArg (·.2.2) h2]
        have hlen : (s.data.take k).length = k := by
          simp [List.length_take]; omega
        obtain ⟨ih1, ih2, ih3, ih4⟩ :=
          ih fuel (by omega)
            (⟨s.data.drop k, s.pattern.tail⟩ : Src)
            (n - (s.data.take k).length) (by rw [hlen]; omega)
        rw [hlen] at ih1 ih2 ih3 ⊢
        simp only [List.length_drop] at ih1 ih2 ih3
        have hmin : min (n - k) (s.data.length - k) + k = min n s.data.length := by
          omega
        refine ⟨?_, ?_, ?_, ?_⟩
        · rw [ih1]
          rw [show min n s.data.length = k + min (n - k) (s.data.length - k) by omega]
          rw [List.take_add]
        · rw [ih2, List.drop_drop]
          rw [show k + min (n - k) (s.data.length - k) = min n s.data.length by omega]
        · rw [ih3]; omega
        · rw [hlen] at ih4
          simpa using ih4

theorem readFullAux_spec (n : Nat) (s : Src) :
    (readFullAux s n).1 = s.data.take (min n s.data.length) ∧
    (readFullAux s n).2.2.data = s.data.drop (min n s.data.length) ∧
    ((readFullAux s n).2.1 = none ↔ n ≤ s.data.length) ∧
    ((readFullAux s n).2.1 = none ∨ (readFullAux s n).2.1 = some .eof) :=
  readFullGo_spec n s n (Nat.le_refl n)

theorem readFull_spec (s : Src) (n : Nat) :
    (readFull s n).1 = s.data.take (min n s.data.length) ∧
    (readFull s n).2.2.data = s.data.drop (min n s.data.length) ∧
    (n ≤ s.data.length → (readFull s n).2.1 = none) ∧
    (s.data.length < n → (readFull s n).2.1 =
      some (if s.data.length = 0 then .eof else .unexpectedEOF)) := by
  obtain ⟨h1, h2, h3, h4⟩ := readFullAux_spec n s
  rcases h4 with hnone | heof
  · have hstep : readFull s n =
        ((readFullAux s n).1, none, (readFullAux s n).2.2) := by
      unfold readFull
      rcases hr : readFullAux s n with ⟨out, e, s1⟩
      rw [hr] at hnone
      simp only at hnone
      subst hnone
      rfl
    rw [hstep]
    have hle : n ≤ s.data.length := h3.mp hnone
    exact ⟨h1, h2, fun _ => rfl, fun h => by omega⟩
  · have hlt : s.data.length < n := by
      by_contra hc
      rw [h3.mpr (by omega)] at heof
      exact Option.noConfusion heof
    have hstep : readFull s n =
        if (readFullAux s n).1.length = 0 then
          ([], some .eof, (readFullAux s n).2.2)
        else ((readFullAux s n).1, some .unexpectedEOF,
              (readFullAux s n).2.2) := by
      unfold readFull
      rcases hr : readFullAux s n with ⟨out, e, s1⟩
      rw [hr] at heof
      simp only at heof
      subst heof
      rfl
    rw [hstep]
    have hlena : (readFullAux s n).1.length = min n s.data.length := by
      rw [h1, List.length_take]
      omega
    split
    next hz =>
      rw [hlena] at hz
      have hlen0 : s.data.length = 0 := by omega
      refine ⟨?_, h2, fun h => by omega, fun _ => by simp [hlen0]⟩
      have : min n s.data.length = 0 := by omega
      simp [this]
    next hz =>
      rw [hlena] at hz
      have hlen0 : s.data.length ≠ 0 := by omega
      exact ⟨h1, h2, fun h => by omega, fun _ => by simp [hlen0]⟩

/-! ### Structural lemmas about the peek bookkeeping -/

theorem pendingBytes_length (b : Reader) (hwf : b.WF) :
    b.pendingBytes.length = b.numUnusedPeekedBytes := by
  obtain ⟨hw1, hw2⟩ := hwf
  unfold Reader.pendingBytes Reader.numUnusedPeekedBytes
  rw [List.length_take, List.length_drop]
  omega

theorem avail_eq (b : Reader) (s : Src) (hwf : b.WF) (hs : b.source = some s) :
    b.avail = b.numUnusedPeekedBytes + s.data.length := by
  unfold Reader.avail Reader.stream Reader.srcData
  rw [hs, List.length_append, pendingBytes_length b hwf]

theorem stream_eq (b : Reader) (s : Src) (hs : b.source = some s) :
    b.stream = b.pendingBytes ++ s.data := by
  unfold Reader.stream Reader.srcData
  rw [hs]

theorem grownPeekBuffer_spec (b : Reader) (nRead : Nat) :
    (∃ ext, b.grownPeekBuffer nRead = b.peekBuffer ++ ext) ∧
    b.nPeeked + nRead ≤ (b.grownPeekBuffer nRead).length := by
  unfold Reader.grownPeekBuffer
  split
  next hg =>
    split
    next hg2 =>
      refine ⟨⟨_, rfl⟩, ?_⟩
      rw [List.length_append, List.length_replicate]
      omega
    next hg2 =>
      refine ⟨⟨_, rfl⟩, ?_⟩
      rw [List.length_append, List.length_replicate]
      omega
  next hg =>
    exact ⟨⟨[], by simp⟩, by omega⟩

theorem overwriteAt_length (l : List Byte) (off : Nat) (xs : List Byte)
    (h : off + xs.length ≤ l.length) :
    (overwriteAt l off xs).length = l.length := by
  unfold overwriteAt
  rw [List.length_append, List.length_append, List.length_take,
      List.length_drop]
  omega

theorem overwriteAt_pending (buf ext chunk : List Byte) (p q : Nat)
    (hpq : p ≤ q) (hq : q ≤ buf.length) :
    ((overwriteAt (buf ++ ext) q chunk).drop p).take (q + chunk.length - p) =
      (buf.drop p).take (q - p) ++ chunk := by
  unfold overwriteAt
  rw [List.take_append_of_le_length hq]
  generalize (buf ++ ext).drop (q + chunk.length) = rest
  have hlt : ((buf.take q) : List Byte).length = q := by
    rw [List.length_take]; omega
  rw [List.drop_append_of_le_length (by rw [List.length_append, hlt]; omega)]
  rw [List.drop_append_of_le_length (by rw [hlt]; omega)]
  rw [List.drop_take]
  have hdl : ((buf.drop p).take (q - p)).length = q - p := by
    rw [List.length_take, List.length_drop]; omega
  rw [List.append_assoc]
  rw [show q + chunk.length - p = ((buf.drop p).take (q - p)).length
        + chunk.length by rw [hdl]; omega]
  rw [List.take_append]
  rw [List.take_left' rfl]

theorem overwriteAt_pending_same (buf ext chunk : List Byte) (p q : Nat)
    (hpq : p ≤ q) (hq : q ≤ buf.length) :
    ((overwriteAt (buf ++ ext) q chunk).drop p).take (q - p) =
      (buf.drop p).take (q - p) := by
  unfold overwriteAt
  rw [List.take_append_of_le_length hq]
  generalize (buf ++ ext).drop (q + chunk.length) = rest
  have hlt : ((buf.take q) : List Byte).length = q := by
    rw [List.length_take]; omega
  rw [List.drop_append_of_le_length (by rw [List.length_append, hlt]; omega)]
  rw [List.drop_append_of_le_length (by rw [hlt]; omega)]
  rw [List.drop_take]
  have hdl : ((buf.drop p).take (q - p)).length = q - p := by
    rw [List.length_take, List.length_drop]; omega
  rw [List.append_assoc]
  rw [List.take_left' hdl]

theorem pend_eq (b : Reader) :
    (b.peekBuffer.drop b.peekPos).take b.numUnusedPeekedBytes =
      b.pendingBytes := rfl

theorem readFull_length (s : Src) (n : Nat) :
    (readFull s n).1.length = min n s.data.length := by
  rw [(readFull_spec s n).1, List.length_take]
  omega

/-! ### Shape lemmas for `Reader.peek` -/

theorem peek_nil (b : Reader) (hs : b.source = none) (n : Nat) :
    b.peek n = (some .nilSource, [], b) := by
  unfold Reader.peek
  rw [hs]

theorem peek_zero (b : Reader) (s : Src) (hs : b.source = some s) :
    b.peek 0 = (none, [], b) := by
  unfold Reader.peek
  rw [hs]
  simp

theorem peek_fast (b : Reader) (s : Src) (hs : b.source = some s) (n : Nat)
    (h0 : n ≠ 0) (h1 : n ≤ b.numUnusedPeekedBytes) :
    b.peek n = (none, (b.peekBuffer.drop b.peekPos).take n, b) := by
  unfold Reader.peek
  rw [hs]
  simp only [if_neg h0, if_pos h1]

theorem peek_fetch (b : Reader) (s : Src) (hs : b.source = some s) (n : Nat)
    (h0 : n ≠ 0) (h1 : ¬ n ≤ b.numUnusedPeekedBytes)
    (herr : (readFull s (n - b.numUnusedPeekedBytes)).2.1 = none) :
    b.peek n = (none,
      b.pendingBytes ++ (readFull s (n - b.numUnusedPeekedBytes)).1,
      { b with
          source := some (readFull s (n - b.numUnusedPeekedBytes)).2.2,
          peekBuffer :=
            overwriteAt (b.grownPeekBuffer (n - b.numUnusedPeekedBytes))
              b.nPeeked (readFull s (n - b.numUnusedPeekedBytes)).1,
          nPeeked := b.nPeeked + (n - b.numUnusedPeekedBytes) }) := by
  unfold Reader.peek
  rw [hs]
  simp only [if_neg h0, if_neg h1]
  rcases hr : readFull s (n - b.numUnusedPeekedBytes) with ⟨chunk, e, s1⟩
  rw [hr] at herr
  simp only at herr
  subst herr
  rw [← pend_eq]

theorem peek_fetch_err (b : Reader) (s : Src) (hs : b.source = some s)
    (n : Nat) (h0 : n ≠ 0) (h1 : ¬ n ≤ b.numUnusedPeekedBytes) (e : Err)
    (herr : (readFull s (n - b.numUnusedPeekedBytes)).2.1 = some e) :
    b.peek n = (some e, b.pendingBytes,
      { b with
          source := some (readFull s (n - b.numUnusedPeekedBytes)).2.2,
          peekBuffer :=
            overwriteAt (b.grownPeekBuffer (n - b.numUnusedPeekedBytes))
              b.nPeeked (readFull s (n - b.numUnusedPeekedBytes)).1 }) := by
  unfold Reader.peek
  rw [hs]
  simp only [if_neg h0, if_neg h1]
  rcases hr : readFull s (n - b.numUnusedPeekedBytes) with ⟨chunk, e1, s1⟩
  rw [hr] at herr
  simp only at herr
  subst herr
  rw [← pend_eq]

/-! ### Shape lemmas for `Reader.readBytes` -/

theorem readBytes_nil (b : Reader) (hs : b.source = none) (n : Nat) :
    b.readBytes n = (some .nilSource, [], b) := by
  unfold Reader.readBytes
  rw [hs]

theorem readBytes_zero (b : Reader) (s : Src) (hs : b.source = some s) :
    b.readBytes 0 = (none, [], b) := by
  unfold Reader.readBytes
  rw [hs]
  simp

theorem readBytes_fast (b : Reader) (s : Src) (hs : b.source = some s)
    (n : Nat) (h0 : n ≠ 0) (hpos : 0 < b.numUnusedPeekedBytes)
    (h1 : n ≤ b.numUnusedPeekedBytes) :
    b.readBytes n = (none, (b.peekBuffer.drop b.peekPos).take n,
      { b with peekPos := b.peekPos + n, pos := b.pos + n }) := by
  unfold Reader.readBytes
  rw [hs]
  simp only [if_neg h0, if_pos hpos, if_pos h1]

theorem readBytes_merge (b : Reader) (s : Src) (hs : b.source = some s)
    (n : Nat) (h0 : n ≠ 0) (hpos : 0 < b.numUnusedPeekedBytes)
    (h1 : ¬ n ≤ b.numUnusedPeekedBytes) :
    b.readBytes n = ((readFull s (n - b.numUnusedPeekedBytes)).2.1,
      b.pendingBytes ++ (readFull s (n - b.numUnusedPeekedBytes)).1,
      { b with
          source := some (readFull s (n - b.numUnusedPeekedBytes)).2.2,
          peekPos := b.nPeeked,
          pos := b.pos + (b.numUnusedPeekedBytes
            + (readFull s (n - b.numUnusedPeekedBytes)).1.length) }) := by
  unfold Reader.readBytes
  rw [hs]
  simp only [if_neg h0, if_pos hpos, if_neg h1]
  rcases hr : readFull s (n - b.numUnusedPeekedBytes) with ⟨chunk, e, s1⟩
  rw [← pend_eq]

theorem readBytes_direct (b : Reader) (s : Src) (hs : b.source = some s)
    (n : Nat) (h0 : n ≠ 0) (hpos : ¬ 0 < b.numUnusedPeekedBytes) :
    b.readBytes n = ((readFull s n).2.1, (readFull s n).1,
      { b with source := some (readFull s n).2.2,
               pos := b.pos + (readFull s n).1.length }) := by
  unfold Reader.readBytes
  rw [hs]
  simp only [if_neg h0, if_neg hpos]

/-! ### Characterization of `Reader.peek` -/

theorem peek_preserves (b : Reader) (n : Nat) :
    ((b.peek n).2.2).pos = b.pos ∧ ((b.peek n).2.2).bo = b.bo ∧
    ((b.peek n).2.2).peekPos = b.peekPos := by
  cases hsrc : b.source with
  | none => rw [peek_nil b hsrc n]; exact ⟨rfl, rfl, rfl⟩
  | some s =>
    by_cases h0 : n = 0
    · subst h0; rw [peek_zero b s hsrc]; exact ⟨rfl, rfl, rfl⟩
    by_cases h1 : n ≤ b.numUnusedPeekedBytes
    · rw [peek_fast b s hsrc n h0 h1]; exact ⟨rfl, rfl, rfl⟩
    cases herr : (readFull s (n - b.numUnusedPeekedBytes)).2.1 with
    | none => rw [peek_fetch b s hsrc n h0 h1 herr]; exact ⟨rfl, rfl, rfl⟩
    | some e =>
      rw [peek_fetch_err b s hsrc n h0 h1 e herr]; exact ⟨rfl, rfl, rfl⟩

theorem peek_wf (b : Reader) (n : Nat) (hwf : b.WF) : ((b.peek n).2.2).WF := by
  obtain ⟨hw1, hw2⟩ := hwf
  cases hsrc : b.source with
  | none => rw [peek_nil b hsrc n]; exact ⟨hw1, hw2⟩
  | some s =>
    by_cases h0 : n = 0
    · subst h0; rw [peek_zero b s hsrc]; exact ⟨hw1, hw2⟩
    by_cases h1 : n ≤ b.numUnusedPeekedBytes
    · rw [peek_fast b s hsrc n h0 h1]; exact ⟨hw1, hw2⟩
    obtain ⟨⟨ext, hext⟩, hglen⟩ :=
      grownPeekBuffer_spec b (n - b.numUnusedPeekedBytes)
    have hcl : (readFull s (n - b.numUnusedPeekedBytes)).1.length
        ≤ n - b.numUnusedPeekedBytes := by
      rw [readFull_length]; omega
    have hoal : (overwriteAt (b.grownPeekBuffer (n - b.numUnusedPeekedBytes))
        b.nPeeked (readFull s (n - b.numUnusedPeekedBytes)).1).length
        = (b.grownPeekBuffer (n - b.numUnusedPeekedBytes)).length :=
      overwriteAt_length _ _ _ (by omega)
    cases herr : (readFull s (n - b.numUnusedPeekedBytes)).2.1 with
    | none =>
      rw [peek_fetch b s hsrc n h0 h1 herr]
      show b.peekPos ≤ b.nPeeked + (n - b.numUnusedPeekedBytes) ∧
        b.nPeeked + (n - b.numUnusedPeekedBytes) ≤ _
      rw [hoal]
      omega
    | some e =>
      rw [peek_fetch_err b s hsrc n h0 h1 e herr]
      show b.peekPos ≤ b.nPeeked ∧ b.nPeeked ≤ _
      rw [hoal]
      omega

theorem peek_success (b : Reader) (s : Src) (hwf : b.WF)
    (hs : b.source = some s) (n : Nat) (hn : n ≤ b.avail) :
    (b.peek n).1 = none ∧
    (b.peek n).2.1 = b.stream.take n ∧
    ((b.peek n).2.2).stream = b.stream ∧
    n ≤ ((b.peek n).2.2).numUnusedPeekedBytes ∧
    (∃ s1, ((b.peek n).2.2).source = some s1) := by
  have hpl := pendingBytes_length b hwf
  have hav := avail_eq b s hwf hs
  have hstr := stream_eq b s hs
  obtain ⟨hw1, hw2⟩ := hwf
  by_cases h0 : n = 0
  · subst h0
    rw [peek_zero b s hs]
    exact ⟨rfl, by simp, rfl, by omega, ⟨s, hs⟩⟩
  by_cases h1 : n ≤ b.numUnusedPeekedBytes
  · rw [peek_fast b s hs n h0 h1]
    refine ⟨rfl, ?_, rfl, h1, ⟨s, hs⟩⟩
    rw [hstr, List.take_append_of_le_length (by rw [hpl]; exact h1)]
    unfold Reader.pendingBytes
    rw [List.take_take]
    unfold Reader.numUnusedPeekedBytes at h1
    rw [show min n (b.nPeeked - b.peekPos) = n by omega]
  · have hm : n - b.numUnusedPeekedBytes ≤ s.data.length := by omega
    have herr := (readFull_spec s (n - b.numUnusedPeekedBytes)).2.2.1 hm
    rw [peek_fetch b s hs n h0 h1 herr]
    obtain ⟨f1, f2, -, -⟩ := readFull_spec s (n - b.numUnusedPeekedBytes)
    have hmin : min (n - b.numUnusedPeekedBytes) s.data.length
        = n - b.numUnusedPeekedBytes := by omega
    rw [hmin] at f1 f2
    have hcl : (readFull s (n - b.numUnusedPeekedBytes)).1.length
        = n - b.numUnusedPeekedBytes := by
      rw [readFull_length]; omega
    obtain ⟨⟨ext, hext⟩, hglen⟩ :=
      grownPeekBuffer_spec b (n - b.numUnusedPeekedBytes)
    refine ⟨rfl, ?_, ?_, ?_, ⟨_, rfl⟩⟩
    · have hpb : List.take n b.pendingBytes = b.pendingBytes :=
        List.take_of_length_le (by rw [hpl]; omega)
      rw [f1, hstr, List.take_append_eq_append_take, hpb, hpl]
    · rw [hstr]
      unfold Reader.stream Reader.srcData Reader.pendingBytes
      dsimp only
      rw [f2, hext]
      rw [show b.nPeeked + (n - b.numUnusedPeekedBytes) - b.peekPos
            = b.nPeeked + (readFull s (n - b.numUnusedPeekedBytes)).1.length
              - b.peekPos by rw [hcl]]
      rw [overwriteAt_pending _ _ _ _ _ hw1 hw2]
      rw [f1, List.append_assoc, List.take_append_drop]
    · show n ≤ b.nPeeked + (n - b.numUnusedPeekedBytes) - b.peekPos
      unfold Reader.numUnusedPeekedBytes at h1 ⊢
      omega

theorem peek_failure (b : Reader) (s : Src) (hwf : b.WF)
    (hs : b.source = some s) (n : Nat) (hn : b.avail < n) :
    (b.peek n).1 =
      some (if s.data.length = 0 then .eof else .unexpectedEOF) ∧
    (b.peek n).2.1 = b.pendingBytes ∧
    ((b.peek n).2.2).peekPos = b.peekPos ∧
    ((b.peek n).2.2).nPeeked = b.nPeeked ∧
    ((b.peek n).2.2).pendingBytes = b.pendingBytes ∧
    ((b.peek n).2.2).pos = b.pos := by
  have hpl := pendingBytes_length b hwf
  have hav := avail_eq b s hwf hs
  obtain ⟨hw1, hw2⟩ := hwf
  have h0 : n ≠ 0 := by omega
  have h1 : ¬ n ≤ b.numUnusedPeekedBytes := by omega
  have hm : s.data.length < n - b.numUnusedPeekedBytes := by omega
  have herr := (readFull_spec s (n - b.numUnusedPeekedBytes)).2.2.2 hm
  rw [peek_fetch_err b s hs n h0 h1 _ herr]
  obtain ⟨⟨ext, hext⟩, hglen⟩ :=
    grownPeekBuffer_spec b (n - b.numUnusedPeekedBytes)
  refine ⟨rfl, rfl, rfl, rfl, ?_, rfl⟩
  unfold Reader.pendingBytes
  dsimp only
  rw [hext]
  rw [overwriteAt_pending_same _ _ _ _ _ hw1 hw2]

/-! ### Characterization of `Reader.readBytes` -/

theorem readBytes_delta (b : Reader) (n : Nat) (hwf : b.WF) :
    ((b.readBytes n).2.2).pos = b.pos + ((b.readBytes n).2.1).length ∧
    ((b.readBytes n).2.2).WF ∧
    ((b.readBytes n).2.2).bo = b.bo := by
  have hpl := pendingBytes_length b hwf
  obtain ⟨hw1, hw2⟩ := hwf
  cases hsrc : b.source with
  | none => rw [readBytes_nil b hsrc n]; exact ⟨by simp, ⟨hw1, hw2⟩, rfl⟩
  | some s =>
    by_cases h0 : n = 0
    · subst h0
      rw [readBytes_zero b s hsrc]
      exact ⟨by simp, ⟨hw1, hw2⟩, rfl⟩
    by_cases hpos : 0 < b.numUnusedPeekedBytes
    · by_cases h1 : n ≤ b.numUnusedPeekedBytes
      · rw [readBytes_fast b s hsrc n h0 hpos h1]
        refine ⟨?_, ⟨?_, ?_⟩, rfl⟩
        · show b.pos + (n : Int) = b.pos + _
          rw [List.length_take, List.length_drop]
          unfold Reader.numUnusedPeekedBytes at h1
          rw [show min n (b.peekBuffer.length - b.peekPos) = n by omega]
        · show b.peekPos + n ≤ b.nPeeked
          unfold Reader.numUnusedPeekedBytes at h1
          omega
        · exact hw2
      · rw [readBytes_merge b s hsrc n h0 hpos h1]
        refine ⟨?_, ⟨?_, ?_⟩, rfl⟩
        · show b.pos + _ = b.pos + _
          rw [List.length_append, hpl]
          omega
        · show b.nPeeked ≤ b.nPeeked
          exact Nat.le_refl _
        · exact hw2
    · rw [readBytes_direct b s hsrc n h0 hpos]
      exact ⟨rfl, ⟨hw1, hw2⟩, rfl⟩

theorem readBytes_success (b : Reader) (s : Src) (hwf : b.WF)
    (hs : b.source = some s) (n : Nat) (hn : n ≤ b.avail) :
    (b.readBytes n).1 = none ∧
    (b.readBytes n).2.1 = b.stream.take n ∧
    ((b.readBytes n).2.2).stream = b.stream.drop n ∧
    ((b.readBytes n).2.2).pos = b.pos + n ∧
    ((b.readBytes n).2.2).WF ∧
    ((b.readBytes n).2.2).bo = b.bo ∧
    (∃ s1, ((b.readBytes n).2.2).source = some s1) := by
  have hpl := pendingBytes_length b hwf
  have hav := avail_eq b s hwf hs
  have hstr := stream_eq b s hs
  obtain ⟨hw1, hw2⟩ := hwf
  by_cases h0 : n = 0
  · subst h0
    rw [readBytes_zero b s hs]
    exact ⟨rfl, by simp, by simp, by simp, ⟨hw1, hw2⟩, rfl, ⟨s, hs⟩⟩
  by_cases hpos : 0 < b.numUnusedPeekedBytes
  · by_cases h1 : n ≤ b.numUnusedPeekedBytes
    · rw [readBytes_fast b s hs n h0 hpos h1]
      refine ⟨rfl, ?_, ?_, rfl, ⟨?_, ?_⟩, rfl, ⟨s, hs⟩⟩
      · rw [hstr, List.take_append_of_le_length (by rw [hpl]; exact h1)]
        unfold Reader.pendingBytes
        rw [List.take_take]
        unfold Reader.numUnusedPeekedBytes at h1
        rw [show min n (b.nPeeked - b.peekPos) = n by omega]
      · rw [hstr, List.drop_append_of_le_length (by rw [hpl]; exact h1)]
        unfold Reader.stream Reader.srcData Reader.pendingBytes
        dsimp only
        rw [hs]
        dsimp only
        rw [List.drop_take, List.drop_drop]
        rw [show b.nPeeked - (b.peekPos + n) = b.nPeeked - b.peekPos - n by
              omega]
      · show b.peekPos + n ≤ b.nPeeked
        unfold Reader.numUnusedPeekedBytes at h1
        omega
      · exact hw2
    · have hm : n - b.numUnusedPeekedBytes ≤ s.data.length := by omega
      have herr := (readFull_spec s (n - b.numUnusedPeekedBytes)).2.2.1 hm
      obtain ⟨f1, f2, -, -⟩ := readFull_spec s (n - b.numUnusedPeekedBytes)
      have hmin : min (n - b.numUnusedPeekedBytes) s.data.length
          = n - b.numUnusedPeekedBytes := by omega
      rw [hmin] at f1 f2
      have hcl : (readFull s (n - b.numUnusedPeekedBytes)).1.length
          = n - b.numUnusedPeekedBytes := by
        rw [readFull_length]; omega
      rw [readBytes_merge b s hs n h0 hpos h1]
      refine ⟨herr, ?_, ?_, ?_, ⟨?_, ?_⟩, rfl, ⟨_, rfl⟩⟩
      · have hpb : List.take n b.pendingBytes = b.pendingBytes :=
          List.take_of_length_le (by rw [hpl]; omega)
        rw [f1, hstr, List.take_append_eq_append_take, hpb, hpl]
      · rw [stream_eq _ _ (show _ = some (readFull s
              (n - b.numUnusedPeekedBytes)).2.2 from rfl)]
        unfold Reader.pendingBytes
        dsimp only
        rw [show b.nPeeked - b.nPeeked = 0 by omega, List.take_zero, f2,
            List.nil_append]
        have hdnil : List.drop n b.pendingBytes = [] :=
          List.drop_eq_nil_of_le (by rw [hpl]; omega)
        rw [hstr, List.drop_append_eq_append_drop, hdnil, hpl,
            List.nil_append]
      · show b.pos + _ = b.pos + (n : Int)
        rw [hcl]
        omega
      · show b.nPeeked ≤ b.nPeeked
        exact Nat.le_refl _
      · exact hw2
  · have hpend0 : b.pendingBytes = [] := by
      unfold Reader.pendingBytes
      unfold Reader.numUnusedPeekedBytes at hpos
      rw [show b.nPeeked - b.peekPos = 0 by omega, List.take_zero]
    have hm : n ≤ s.data.length := by omega
    have herr := (readFull_spec s n).2.2.1 hm
    obtain ⟨f1, f2, -, -⟩ := readFull_spec s n
    have hmin : min n s.data.length = n := by omega
    rw [hmin] at f1 f2
    have hcl : (readFull s n).1.length = n := by
      rw [readFull_length]; omega
    rw [readBytes_direct b s hs n h0 hpos]
    refine ⟨herr, ?_, ?_, ?_, ⟨hw1, hw2⟩, rfl, ⟨_, rfl⟩⟩
    · rw [f1, hstr, hpend0, List.nil_append]
    · rw [stream_eq _ _ (show _ = some (readFull s n).2.2 from rfl)]
      show b.pendingBytes ++ _ = _
      rw [f2, hstr, hpend0, List.nil_append, List.nil_append]
    · rw [hcl]

/-! ### Position accounting for the remaining reader operations -/

theorem readByte_delta (b : Reader) (hwf : b.WF) :
    (b.readByte.2.2).pos = b.pos + (b.readByte.2.1 : Int) ∧
    (b.readByte.2.2).WF := by
  obtain ⟨hd, hw, -⟩ := readBytes_delta b 1 hwf
  unfold Reader.readByte
  rcases hr : b.readBytes 1 with ⟨e, d, b1⟩
  rw [hr] at hd hw
  simp only at hd hw
  cases e
  · exact ⟨hd, hw⟩
  · exact ⟨hd, hw⟩

theorem readUint16_delta (b : Reader) (hwf : b.WF) :
    (b.readUint16.2.2).pos = b.pos + (b.readUint16.2.1 : Int) ∧
    (b.readUint16.2.2).WF := by
  obtain ⟨hd, hw, -⟩ := readBytes_delta b 2 hwf
  unfold Reader.readUint16
  cases hsrc : b.source with
  | none => exact ⟨by simp, hwf⟩
  | some s =>
    cases hbo : b.bo with
    | none => exact ⟨by simp, hwf⟩
    | some bo =>
      rcases hr : b.readBytes 2 with ⟨e, d, b1⟩
      rw [hr] at hd hw
      simp only at hd hw
      cases e
      · exact ⟨hd, hw⟩
      · exact ⟨hd, hw⟩

theorem readUint32_delta (b : Reader) (hwf : b.WF) :
    (b.readUint32.2.2).pos = b.pos + (b.readUint32.2.1 : Int) ∧
    (b.readUint32.2.2).WF := by
  obtain ⟨hd, hw, -⟩ := readBytes_delta b 4 hwf
  unfold Reader.readUint32
  cases hsrc : b.source with
  | none => exact ⟨by simp, hwf⟩
  | some s =>
    cases hbo : b.bo with
    | none => exact ⟨by simp, hwf⟩
    | some bo =>
      rcases hr : b.readBytes 4 with ⟨e, d, b1⟩
      rw [hr] at hd hw
      simp only at hd hw
      cases e
      · exact ⟨hd, hw⟩
      · exact ⟨hd, hw⟩

theorem readUint64_delta (b : Reader) (hwf : b.WF) :
    (b.readUint64.2.2).pos = b.pos + (b.readUint64.2.1 : Int) ∧
    (b.readUint64.2.2).WF := by
  obtain ⟨hd, hw, -⟩ := readBytes_delta b 8 hwf
  unfold Reader.readUint64
  cases hsrc : b.source with
  | none => exact ⟨by simp, hwf⟩
  | some s =>
    cases hbo : b.bo with
    | none => exact ⟨by simp, hwf⟩
    | some bo =>
      rcases hr : b.readBytes 8 with ⟨e, d, b1⟩
      rw [hr] at hd hw
      simp only at hd hw
      cases e
      · exact ⟨hd, hw⟩
      · exact ⟨hd, hw⟩

theorem readFloat32_delta (b : Reader) (hwf : b.WF) :
    (b.readFloat32.2.2).pos = b.pos + (b.readFloat32.2.1 : Int) ∧
    (b.readFloat32.2.2).WF := by
  obtain ⟨hd, hw, -⟩ := readBytes_delta b 4 hwf
  unfold Reader.readFloat32
  cases hsrc : b.source with
  | none => exact ⟨by simp, hwf⟩
  | some s =>
    cases hbo : b.bo with
    | none => exact ⟨by simp, hwf⟩
    | some bo =>
      rcases hr : b.readBytes 4 with ⟨e, d, b1⟩
      rw [hr] at hd hw
      simp only at hd hw
      cases e
      · exact ⟨hd, hw⟩
      · exact ⟨hd, hw⟩

theorem readFloat64_delta (b : Reader) (hwf : b.WF) :
    (b.readFloat64.2.2).pos = b.pos + (b.readFloat64.2.1 : Int) ∧
    (b.readFloat64.2.2).WF := by
  obtain ⟨hd, hw, -⟩ := readBytes_delta b 8 hwf
  unfold Reader.readFloat64
  cases hsrc : b.source with
  | none => exact ⟨by simp, hwf⟩
  | some s =>
    cases hbo : b.bo with
    | none => exact ⟨by simp, hwf⟩
    | some bo =>
      rcases hr : b.readBytes 8 with ⟨e, d, b1⟩
      rw [hr] at hd hw
      simp only at hd hw
      cases e
      · exact ⟨hd, hw⟩
      · exact ⟨hd, hw⟩

theorem discardLoop_delta (k : Nat) : ∀ (rem : Nat) (b : Reader), b.WF →
    ((b.discardLoop k rem).2.2).pos
      = b.pos + ((b.discardLoop k rem).2.1 : Int) ∧
    ((b.discardLoop k rem).2.2).WF := by
  induction k with
  | zero =>
    intro rem b hwf
    obtain ⟨hd, hw, -⟩ := readBytes_delta b rem hwf
    unfold Reader.discardLoop
    rcases hr : b.readBytes rem with ⟨e, d, b1⟩
    rw [hr] at hd hw
    simp only at hd hw
    exact ⟨hd, hw⟩
  | succ k ih =>
    intro rem b hwf
    obtain ⟨hd, hw, -⟩ := readBytes_delta b 1024 hwf
    unfold Reader.discardLoop
    rcases hr : b.readBytes 1024 with ⟨e, d, b1⟩
    rw [hr] at hd hw
    simp only at hd hw
    cases e with
    | some e1 => exact ⟨hd, hw⟩
    | none =>
      dsimp only
      obtain ⟨ihd, ihw⟩ := ih (rem - 1024) b1 hw
      rcases hr2 : b1.discardLoop k (rem - 1024) with ⟨e2, k2, b2⟩
      rw [hr2] at ihd ihw
      simp only at ihd ihw
      refine ⟨?_, ihw⟩
      rw [ihd, hd]
      push_cast
      ring

theorem discard_delta (b : Reader) (n : Nat) (hwf : b.WF) :
    ((b.discard n).2.2).pos = b.pos + ((b.discard n).2.1 : Int) ∧
    ((b.discard n).2.2).WF := by
  cases hsrc : b.source with
  | none =>
    have hstep : b.discard n = (some .nilSource, 0, b) := by
      unfold Reader.discard
      rw [hsrc]
    rw [hstep]
    exact ⟨by simp, hwf⟩
  | some s =>
    by_cases hle : n ≤ 1024
    · have hstep : b.discard n =
          match b.readBytes n with | (e, d, b1) => (e, d.length, b1) := by
        unfold Reader.discard
        rw [hsrc]
        dsimp only
        rw [if_pos hle]
      rw [hstep]
      obtain ⟨hd, hw, -⟩ := readBytes_delta b n hwf
      rcases hr : b.readBytes n with ⟨e, d, b1⟩
      rw [hr] at hd hw
      simp only at hd hw
      exact ⟨hd, hw⟩
    · have hstep : b.discard n = b.discardLoop ((n - 1) / 1024) n := by
        unfold Reader.discard
        rw [hsrc]
        dsimp only
        rw [if_neg hle]
      rw [hstep]
      exact discardLoop_delta ((n - 1) / 1024) n b hwf

theorem runOp_delta (b : Reader) (op : Op) (hwf : b.WF) :
    ((b.runOp op).2.2).pos = b.pos + ((b.runOp op).2.1 : Int) ∧
    ((b.runOp op).2.2).WF := by
  cases op with
  | readByte =>
    obtain ⟨hd, hw⟩ := readByte_delta b hwf
    simp only [Reader.runOp]
    rcases hr : b.readByte with ⟨r, k, b1⟩
    rw [hr] at hd hw
    simp only at hd hw
    cases r
    · exact ⟨hd, hw⟩
    · exact ⟨hd, hw⟩
  | readBytes n =>
    obtain ⟨hd, hw, -⟩ := readBytes_delta b n hwf
    simp only [Reader.runOp]
    rcases hr : b.readBytes n with ⟨e, d, b1⟩
    rw [hr] at hd hw
    simp only at hd hw
    exact ⟨hd, hw⟩
  | readUint16 =>
    obtain ⟨hd, hw⟩ := readUint16_delta b hwf
    simp only [Reader.runOp]
    rcases hr : b.readUint16 with ⟨r, k, b1⟩
    rw [hr] at hd hw
    simp only at hd hw
    cases r
    · exact ⟨hd, hw⟩
    · exact ⟨hd, hw⟩
  | readUint32 =>
    obtain ⟨hd, hw⟩ := readUint32_delta b hwf
    simp only [Reader.runOp]
    rcases hr : b.readUint32 with ⟨r, k, b1⟩
    rw [hr] at hd hw
    simp only at hd hw
    cases r
    · exact ⟨hd, hw⟩
    · exact ⟨hd, hw⟩
  | readUint64 =>
    obtain ⟨hd, hw⟩ := readUint64_delta b hwf
    simp only [Reader.runOp]
    rcases hr : b.readUint64 with ⟨r, k, b1⟩
    rw [hr] at hd hw
    simp only at hd hw
    cases r
    · exact ⟨hd, hw⟩
    · exact ⟨hd, hw⟩
  | readFloat32 =>
    obtain ⟨hd, hw⟩ := readFloat32_delta b hwf
    simp only [Reader.runOp]
    rcases hr : b.readFloat32 with ⟨r, k, b1⟩
    rw [hr] at hd hw
    simp only at hd hw
    cases r
    · exact ⟨hd, hw⟩
    · exact ⟨hd, hw⟩
  | readFloat64 =>
    obtain ⟨hd, hw⟩ := readFloat64_delta b hwf
    simp only [Reader.runOp]
    rcases hr : b.readFloat64 with ⟨r, k, b1⟩
    rw [hr] at hd hw
    simp only at hd hw
    cases r
    · exact ⟨hd, hw⟩
    · exact ⟨hd, hw⟩
  | discard n => exact discard_delta b n hwf
  | peek n =>
    obtain ⟨hp, -, -⟩ := peek_preserves b n
    have hw := peek_wf b n hwf
    simp only [Reader.runOp]
    rcases hr : b.peek n with ⟨e, d, b1⟩
    rw [hr] at hp hw
    simp only at hp hw
    exact ⟨by rw [hp]; simp, hw⟩

theorem runOps_delta (ops : List Op) : ∀ (b : Reader), b.WF →
    ((b.runOps ops).2).pos = b.pos + ((b.runOps ops).1 : Int) ∧
    ((b.runOps ops).2).WF := by
  induction ops with
  | nil => intro b hwf; exact ⟨by simp [Reader.runOps], hwf⟩
  | cons op rest ih =>
    intro b hwf
    obtain ⟨hd, hw⟩ := runOp_delta b op hwf
    simp only [Reader.runOps]
    rcases hr : b.runOp op with ⟨e, k, b1⟩
    rw [hr] at hd hw
    simp only at hd hw
    obtain ⟨ihd, ihw⟩ := ih b1 hw
    rcases hr2 : b1.runOps rest with ⟨tot, b2⟩
    rw [hr2] at ihd ihw
    simp only at ihd ihw
    refine ⟨?_, ihw⟩
    rw [ihd, hd]
    push_cast
    ring

/-! ### Writer lemmas -/

theorem writeBytes_full (w : Writer) (acc src : List Byte)
    (hd : w.dest = some ⟨acc, []⟩) :
    w.writeBytes src = (none,
      { w with pos := w.pos + src.length,
               dest := some ⟨acc ++ src, []⟩ }) := by
  rcases w with ⟨pos, bo, dest⟩
  simp only at hd
  subst hd
  unfold Writer.writeBytes Sink.write
  dsimp only
  split
  next hz =>
    have hnil : src = [] := List.length_eq_zero.mp hz
    subst hnil
    simp
  next hz => rfl

theorem putUint16_length (bo : ByteOrder) (v : Nat) :
    (bo.putUint16 v).length = 2 := by
  cases bo <;> rfl

theorem putUint32_length (bo : ByteOrder) (v : Nat) :
    (bo.putUint32 v).length = 4 := by
  cases bo <;> rfl

theorem putUint64_length (bo : ByteOrder) (v : Nat) :
    (bo.putUint64 v).length = 8 := by
  cases bo <;> rfl

theorem writeUint32_full (w : Writer) (acc : List Byte) (bo : ByteOrder)
    (v : Nat) (hd : w.dest = some ⟨acc, []⟩) (hbo : w.bo = some bo) :
    w.writeUint32 v = (none,
      { w with pos := w.pos + 4,
               dest := some ⟨acc ++ bo.putUint32 v, []⟩ }) := by
  unfold Writer.writeUint32
  rw [hd, hbo]
  dsimp only
  rw [writeBytes_full _ acc _ hd, putUint32_length]
  simp [hbo]

theorem writeFloat64_full (w : Writer) (acc : List Byte) (bo : ByteOrder)
    (bits : Nat) (hd : w.dest = some ⟨acc, []⟩) (hbo : w.bo = some bo) :
    w.writeFloat64 bits = (none,
      { w with pos := w.pos + 8,
               dest := some ⟨acc ++ bo.putUint64 bits, []⟩ }) := by
  unfold Writer.writeFloat64
  rw [hd, hbo]
  dsimp only
  rw [writeBytes_full _ acc _ hd, putUint64_length]
  simp [hbo]

theorem zeroFillLoop_full (k : Nat) : ∀ (rem : Nat) (pos : Int)
    (bo : Option ByteOrder) (acc : List Byte), 1024 * k ≤ rem →
    Writer.zeroFillLoop ⟨pos, bo, some ⟨acc, []⟩⟩ k rem =
      (none, ⟨pos + rem, bo, some ⟨acc ++ List.replicate rem 0, []⟩⟩) := by
  induction k with
  | zero =>
    intro rem pos bo acc hk
    unfold Writer.zeroFillLoop
    rw [writeBytes_full _ acc _ rfl]
    simp
  | succ k ih =>
    intro rem pos bo acc hk
    unfold Writer.zeroFillLoop
    rw [writeBytes_full _ acc _ rfl]
    dsimp only
    rw [show ((List.replicate 1024 (0 : Byte)).length : Int) = 1024 by simp]
    rw [ih (rem - 1024) (pos + 1024) bo (acc ++ List.replicate 1024 0)
          (by omega)]
    rw [List.append_assoc, ← List.replicate_add,
        show 1024 + (rem - 1024) = rem by omega,
        show pos + 1024 + ((rem - 1024 : Nat) : Int) = pos + rem by omega]

/-! ### Encode and decode inverses -/

theorem uint32_putUint32 (bo : ByteOrder) (v : Nat) (hv : v < 4294967296) :
    bo.uint32 (bo.putUint32 v) = v := by
  cases bo <;> simp [ByteOrder.uint32, ByteOrder.putUint32] <;> omega

theorem uint64_putUint64 (bo : ByteOrder) (v : Nat)
    (hv : v < 18446744073709551616) :
    bo.uint64 (bo.putUint64 v) = v := by
  cases bo <;> simp [ByteOrder.uint64, ByteOrder.putUint64] <;> omega

theorem fresh_reader_wf (data : List Byte) (bo : Option ByteOrder) :
    (NewReaderBytes data bo).WF := by
  constructor
  · exact Nat.le_refl 0
  · simp [NewReaderBytes]

theorem fresh_reader_stream (data : List Byte) (bo : Option ByteOrder) :
    (NewReaderBytes data bo).stream = data := rfl

theorem readUint32_fresh (data : List Byte) (bo : ByteOrder)
    (h4 : 4 ≤ data.length) :
    (NewReaderBytes data (some bo)).readUint32.1
      = .ok (bo.uint32 (data.take 4)) := by
  obtain ⟨r1, r2, -⟩ := readBytes_success (NewReaderBytes data (some bo))
    ⟨data, []⟩ (fresh_reader_wf data (some bo)) rfl 4 h4
  unfold Reader.readUint32
  dsimp only [NewReaderBytes]
  rcases hr : (NewReaderBytes data (some bo)).readBytes 4 with ⟨e, out, b1⟩
  rw [hr] at r1 r2
  simp only at r1 r2
  subst r1
  rw [show Reader.readBytes
        { pos := 0, bo := some bo, source := some ⟨data, []⟩,
          peekBuffer := List.replicate 64 0, nPeeked := 0, peekPos := 0 } 4
      = (none, out, b1) from hr]
  rw [r2]
  rfl

theorem readFloat64_fresh (data : List Byte) (bo : ByteOrder)
    (h8 : 8 ≤ data.length) :
    (NewReaderBytes data (some bo)).readFloat64.1
      = .ok (bo.uint64 (data.take 8)) := by
  obtain ⟨r1, r2, -⟩ := readBytes_success (NewReaderBytes data (some bo))
    ⟨data, []⟩ (fresh_reader_wf data (some bo)) rfl 8 h8
  unfold Reader.readFloat64
  dsimp only [NewReaderBytes]
  rcases hr : (NewReaderBytes data (some bo)).readBytes 8 with ⟨e, out, b1⟩
  rw [hr] at r1 r2
  simp only at r1 r2
  subst r1
  rw [show Reader.readBytes
        { pos := 0, bo := some bo, source := some ⟨data, []⟩,
          peekBuffer := List.replicate 64 0, nPeeked := 0, peekPos := 0 } 8
      = (none, out, b1) from hr]
  rw [r2]
  rfl

/-! ### Claims -/

/-- C1: for every well-formed reader over a source that can still supply at
least `N` bytes, a `Peek` with a destination of length `N` followed
immediately by a `ReadBytes` with a destination of length `N` both
succeed, both deliver the same `N` bytes, and the position after the pair
of calls has advanced by exactly `N` (peek contributes nothing). -/
theorem c1_peek_then_read (b : Reader) (s : Src) (N : Nat) (hwf : b.WF)
    (hs : b.source = some s) (hN : N ≤ b.avail) :
    (b.peek N).1 = none ∧
    (((b.peek N).2.2).readBytes N).1 = none ∧
    (((b.peek N).2.2).readBytes N).2.1 = (b.peek N).2.1 ∧
    ((((b.peek N).2.2).readBytes N).2.2).pos = b.pos + N := by
  obtain ⟨p1, p2, p3, p4, ⟨s1, hs1⟩⟩ := peek_success b s hwf hs N hN
  have hwf1 := peek_wf b N hwf
  have hav1 : N ≤ ((b.peek N).2.2).avail := by
    unfold Reader.avail
    rw [p3]
    exact hN
  obtain ⟨r1, r2, -, r4, -, -, -⟩ :=
    readBytes_success ((b.peek N).2.2) s1 hwf1 hs1 N hav1
  obtain ⟨ppos, -, -⟩ := peek_preserves b N
  refine ⟨p1, r1, ?_, ?_⟩
  · rw [r2, p2, p3]
  · rw [r4, ppos]

/-- C2: over every finite sequence of reader operations starting from a
well-formed reader, the value returned by `GetPosition` equals the
starting position plus the total number of bytes delivered to real reads
(`ReadByte`, `ReadBytes`, typed reads, `Discard`); a `Peek` call delivers
nothing to real reads and (as the second conjunct states for an arbitrary
reader and length) never changes the position, regardless of how many
bytes it fetches from the source into the peek buffer. -/
theorem c2_position_invariant (b : Reader) (hwf : b.WF) (ops : List Op)
    (b0 : Reader) (n0 : Nat) :
    ((b.runOps ops).2).getPosition
      = b.getPosition + ((b.runOps ops).1 : Int) ∧
    ((b0.peek n0).2.2).getPosition = b0.getPosition := by
  exact ⟨(runOps_delta ops b hwf).1, (peek_preserves b0 n0).1⟩

/-- C3 counterexample: a sink that accepts only one of two offered bytes
without reporting an error makes `WriteBytes` report success (`none`)
with only part of the buffer delivered (`accepted = [7]`, position 1), so
the write path does not retry the sink until the full buffer is
accepted. -/
theorem c3_counterexample :
    (Writer.writeBytes ⟨0, none, some ⟨[], [(1, none)]⟩⟩ [7, 7]).1 = none ∧
    (Writer.writeBytes ⟨0, none, some ⟨[], [(1, none)]⟩⟩ [7, 7]).2.dest
      = some ⟨[7], []⟩ ∧
    (Writer.writeBytes ⟨0, none, some ⟨[], [(1, none)]⟩⟩ [7, 7]).2.pos
      = 1 := by
  decide

/-- C3 (amended): `WriteBytes` on a bound sink and a non-empty buffer
issues exactly one sink write with no retry loop: the sink's error (if
any) is surfaced verbatim, the position advances by exactly the count the
sink reports as accepted, and the sink has accepted exactly the first
`k` offered bytes, where `k` is that reported count; a short accept
without error is therefore reported as success with only part of the
buffer delivered. -/
theorem c3_write_no_retry (w : Writer) (d : Sink) (src : List Byte)
    (hd : w.dest = some d) (hne : src ≠ []) :
    w.writeBytes src = ((d.write src).2.1,
      { w with pos := w.pos + (d.write src).1,
               dest := some (d.write src).2.2 }) ∧
    ((d.write src).2.2).accepted
      = d.accepted ++ src.take (d.write src).1 ∧
    (d.write src).1 ≤ src.length := by
  refine ⟨?_, ?_, ?_⟩
  · unfold Writer.writeBytes
    rw [hd]
    dsimp only
    rw [if_neg (by simpa using hne)]
  · rcases d with ⟨acc, scr⟩
    cases scr with
    | nil =>
      unfold Sink.write
      dsimp only
      rw [List.take_length]
    | cons c rest =>
      unfold Sink.write
      dsimp only
  · rcases d with ⟨acc, scr⟩
    cases scr with
    | nil => exact Nat.le_refl _
    | cons c rest =>
      show min c.1 src.length ≤ src.length
      omega

/-- C4 counterexample: a zero-length `ReadBytes` and a zero-length `Peek`
on a reader whose source is unset both fail with the nil-source error,
because the nil check precedes the zero-length shortcut; so a zero-length
read request does not succeed regardless of the state of the source. -/
theorem c4_counterexample :
    (Reader.readBytes ⟨0, none, none, List.replicate 64 0, 0, 0⟩ 0).1
      = some .nilSource ∧
    (Reader.peek ⟨0, none, none, List.replicate 64 0, 0, 0⟩ 0).1
      = some .nilSource := by
  decide

/-- C4 (amended): a zero-length read request (`ReadBytes` or `Peek` with
an empty destination) succeeds, without touching the source and without
any state change, whenever the source is set — regardless of the source's
content, even exhausted; when the source is unset, both operations fail
with the nil-source error even for a zero-length request. -/
theorem c4_zero_length_reads (b : Reader) (s : Src) (hs : b.source = some s)
    (b0 : Reader) (h0 : b0.source = none) :
    b.readBytes 0 = (none, [], b) ∧
    b.peek 0 = (none, [], b) ∧
    b0.readBytes 0 = (some .nilSource, [], b0) ∧
    b0.peek 0 = (some .nilSource, [], b0) :=
  ⟨readBytes_zero b s hs, peek_zero b s hs,
   readBytes_nil b0 h0 0, peek_nil b0 h0 0⟩

/-- C5 counterexample: a reader with one pending peeked byte over a
completely exhausted source, asked to peek two bytes, returns the plain
end-of-file error (`eof`, modelling `io.EOF`), not the
unexpected-end-of-input error (`unexpectedEOF`, modelling
`io.ErrUnexpectedEOF`). -/
theorem c5_counterexample :
    (Reader.peek ⟨0, none, some ⟨[], []⟩, 9 :: List.replicate 63 0, 1, 0⟩
        2).1 = some Err.eof ∧
    some Err.eof ≠ some Err.unexpectedEOF := by
  decide

/-- C5 (amended): when a `Peek` on a well-formed reader with pending
peeked bytes must fetch additional bytes and the source cannot supply
them, the call fails with an end-of-input error — `unexpectedEOF` when
the source supplies at least one but not all of the needed bytes, plain
`eof` when it supplies none — and leaves the peek state unchanged: the
consumed offset and the filled length keep their values and the pending
region holds exactly the bytes it held before, and the position is
unchanged. -/
theorem c5_peek_failure_state (b : Reader) (s : Src) (hwf : b.WF)
    (hs : b.source = some s) (n : Nat)
    (hpend : 0 < b.numUnusedPeekedBytes)
    (hfetch : b.numUnusedPeekedBytes < n) (hshort : b.avail < n) :
    (b.peek n).1
      = some (if s.data.length = 0 then .eof else .unexpectedEOF) ∧
    ((b.peek n).2.2).peekPos = b.peekPos ∧
    ((b.peek n).2.2).nPeeked = b.nPeeked ∧
    ((b.peek n).2.2).pendingBytes = b.pendingBytes ∧
    ((b.peek n).2.2).pos = b.pos := by
  obtain ⟨f1, -, f3, f4, f5, f6⟩ := peek_failure b s hwf hs n hshort
  exact ⟨f1, f3, f4, f5, f6⟩

/-- C6: `Peek` is idempotent and repeatable — for a well-formed reader
with enough available bytes, two successive successful peeks of lengths
`n1` and `n2` with no intervening real read agree on their common prefix
(`out1.take n2 = out2.take n1`, which for `n2 = n1` or `n2 ≤ n1` means
the second call returns exactly the first `n2` bytes of the first), and
for non-decreasing lengths `n1 ≤ n2` the first result is a prefix of the
second. -/
theorem c6_peek_idempotent (b : Reader) (s : Src) (hwf : b.WF)
    (hs : b.source = some s) (n1 n2 : Nat) (h1 : n1 ≤ b.avail)
    (h2 : n2 ≤ b.avail) :
    (b.peek n1).1 = none ∧
    (((b.peek n1).2.2).peek n2).1 = none ∧
    ((b.peek n1).2.1).take n2 = ((((b.peek n1).2.2).peek n2).2.1).take n1 ∧
    (n1 ≤ n2 → (b.peek n1).2.1 <+: (((b.peek n1).2.2).peek n2).2.1) := by
  obtain ⟨p1, p2, p3, -, ⟨s1, hs1⟩⟩ := peek_success b s hwf hs n1 h1
  have hwf1 := peek_wf b n1 hwf
  have hav1 : n2 ≤ ((b.peek n1).2.2).avail := by
    unfold Reader.avail
    rw [p3]
    exact h2
  obtain ⟨q1, q2, -, -, -⟩ :=
    peek_success ((b.peek n1).2.2) s1 hwf1 hs1 n2 hav1
  refine ⟨p1, q1, ?_, ?_⟩
  · rw [p2, q2, p3, List.take_take, List.take_take, Nat.min_comm]
  · intro hle
    rw [p2, q2, p3]
    have := List.take_prefix n1 (b.stream.take n2)
    rwa [List.take_take, Nat.min_eq_left hle] at this

/-- C7 counterexample: the low-level `Read` method performs no nil-source
check, so invoking it on a reader whose source is unset dereferences the
unset source; in this model the `none` result records that the operation
does not return an error value but instead hits a runtime fault (a Go
nil-pointer panic), refuting the claim that every operation on an unset
source fails by returning a descriptive error and never panics. -/
theorem c7_counterexample :
    Reader.rawRead ⟨0, none, none, List.replicate 64 0, 0, 0⟩ 1 = none := by
  rfl

/-- C7 (amended): every reader operation except the low-level `Read`
method, when invoked while the source is unset, fails by returning the
descriptive nil-source error without touching any state and without
dereferencing the source; the low-level `Read` method alone performs no
nil check and dereferences the unset source (modelled by the `none`
result). -/
theorem c7_nil_source_behavior (b : Reader) (hs : b.source = none)
    (n m : Nat) :
    b.readBytes n = (some .nilSource, [], b) ∧
    b.peek n = (some .nilSource, [], b) ∧
    b.discard n = (some .nilSource, 0, b) ∧
    b.readByte = (.error .nilSource, 0, b) ∧
    b.readUint16 = (.error .nilSource, 0, b) ∧
    b.readUint32 = (.error .nilSource, 0, b) ∧
    b.readUint64 = (.error .nilSource, 0, b) ∧
    b.readFloat32 = (.error .nilSource, 0, b) ∧
    b.readFloat64 = (.error .nilSource, 0, b) ∧
    b.rawRead m = none := by
  have hrb := readBytes_nil b hs
  refine ⟨hrb n, peek_nil b hs n, ?_, ?_, ?_, ?_, ?_, ?_, ?_, ?_⟩
  · unfold Reader.discard
    rw [hs]
  · unfold Reader.readByte
    rw [hrb 1]
    rfl
  · unfold Reader.readUint16
    rw [hs]
  · unfold Reader.readUint32
    rw [hs]
  · unfold Reader.readUint64
    rw [hs]
  · unfold Reader.readFloat32
    rw [hs]
  · unfold Reader.readFloat64
    rw [hs]
  · unfold Reader.rawRead
    rw [hs]

/-- C8: for a writer bound to a capturing sink (one that accepts every
write in full, as the `io.Writer` contract requires of an in-memory
buffer), `ZeroFill` with a negative count fails explicitly before any
write attempt, `ZeroFill 0` is a no-op success, and for every positive
count `n` — including counts spanning multiple 1024-byte internal chunks
— it writes exactly `n` zero-valued bytes to the sink and advances the
position by exactly `n`. -/
theorem c8_zero_fill (w : Writer) (acc : List Byte)
    (hd : w.dest = some ⟨acc, []⟩) (n : Int) :
    (n < 0 → w.zeroFill n = (some .negativeLength, w)) ∧
    (n = 0 → w.zeroFill n = (none, w)) ∧
    (0 < n → w.zeroFill n = (none,
      { w with pos := w.pos + n,
               dest := some ⟨acc ++ List.replicate n.toNat 0, []⟩ })) := by
  rcases w with ⟨pos, bo, dest⟩
  simp only at hd
  subst hd
  refine ⟨?_, ?_, ?_⟩
  · intro hneg
    unfold Writer.zeroFill
    dsimp only
    rw [if_pos hneg]
  · intro h0
    subst h0
    unfold Writer.zeroFill
    dsimp only
    norm_num
  · intro hpos
    unfold Writer.zeroFill
    dsimp only
    rw [if_neg (by omega), if_neg (by omega)]
    by_cases hle : n ≤ 1024
    · rw [if_pos hle, writeBytes_full _ acc _ rfl]
      rw [show ((List.replicate n.toNat (0 : Byte)).length : Int) = n by
            simp only [List.length_replicate]; omega]
    · rw [if_neg hle]
      rw [zeroFillLoop_full _ _ _ _ _ (by omega)]
      rw [show ((n.toNat : Nat) : Int) = n by omega]

/-- C9: encoding a 32-bit value with `WriteUint32` under byte order `O`
into a capturing sink produces exactly the four `O`-encoded bytes (the
position advancing by 4), and decoding those bytes with `ReadUint32`
under the same `O` returns the original value exactly; likewise a
float64, modelled by its 64-bit IEEE-754 pattern (`Float64bits` and
`Float64frombits` are pure reinterpretations), written with
`WriteFloat64` and read back with `ReadFloat64` under the same byte
order, returns a bit-identical value. -/
theorem c9_roundtrip (bo : ByteOrder) (v bits : Nat)
    (hv : v < 4294967296) (hbits : bits < 18446744073709551616) :
    ((NewWriterSink ⟨[], []⟩ (some bo)).writeUint32 v).1 = none ∧
    ((NewWriterSink ⟨[], []⟩ (some bo)).writeUint32 v).2.pos = 4 ∧
    ((NewWriterSink ⟨[], []⟩ (some bo)).writeUint32 v).2.dest
      = some ⟨bo.putUint32 v, []⟩ ∧
    (NewReaderBytes (bo.putUint32 v) (some bo)).readUint32.1
      = Except.ok v ∧
    ((NewWriterSink ⟨[], []⟩ (some bo)).writeFloat64 bits).1 = none ∧
    ((NewWriterSink ⟨[], []⟩ (some bo)).writeFloat64 bits).2.pos = 8 ∧
    ((NewWriterSink ⟨[], []⟩ (some bo)).writeFloat64 bits).2.dest
      = some ⟨bo.putUint64 bits, []⟩ ∧
    (NewReaderBytes (bo.putUint64 bits) (some bo)).readFloat64.1
      = Except.ok bits := by
  have h32 := writeUint32_full (NewWriterSink ⟨[], []⟩ (some bo)) [] bo v
    rfl rfl
  have h64 := writeFloat64_full (NewWriterSink ⟨[], []⟩ (some bo)) [] bo
    bits rfl rfl
  have hr32 : (NewReaderBytes (bo.putUint32 v) (some bo)).readUint32.1
      = Except.ok v := by
    rw [readUint32_fresh _ bo (by simp [putUint32_length])]
    rw [show (4 : Nat) = (bo.putUint32 v).length
          from (putUint32_length bo v).symm,
        List.take_length, uint32_putUint32 bo v hv]
  have hr64 : (NewReaderBytes (bo.putUint64 bits) (some bo)).readFloat64.1
      = Except.ok bits := by
    rw [readFloat64_fresh _ bo (by simp [putUint64_length])]
    rw [show (8 : Nat) = (bo.putUint64 bits).length
          from (putUint64_length bo bits).symm,
        List.take_length, uint64_putUint64 bo bits hbits]
  rw [h32, h64]
  exact ⟨rfl, by simp [NewWriterSink], by simp [NewWriterSink], hr32,
         rfl, by simp [NewWriterSink], by simp [NewWriterSink], hr64⟩

/-- C10: the low-level `Read` method bypasses the peek buffer entirely —
on a well-formed reader with pending peeked bytes it reads directly from
the underlying source (the returned bytes are a prefix of the bytes still
in the source, which come after the pending bytes in stream order), it
advances the position by exactly the count the source reports, the
pending peeked bytes remain buffered and are still delivered in full by a
later `ReadBytes`, and (last conjunct) `Read` performs no nil-source
check: on an unset source it dereferences the source instead of returning
an error, modelled by the `none` result. -/
theorem c10_raw_read_bypasses_peek (b : Reader) (s : Src) (hwf : b.WF)
    (hs : b.source = some s) (hpend : 0 < b.numUnusedPeekedBytes)
    (n : Nat) :
    (∃ chunk e1 b1, b.rawRead n = some (chunk, e1, b1) ∧
      chunk <+: s.data ∧
      b1.pos = b.pos + chunk.length ∧
      b1.pendingBytes = b.pendingBytes ∧
      (b1.readBytes b.numUnusedPeekedBytes).1 = none ∧
      (b1.readBytes b.numUnusedPeekedBytes).2.1 = b.pendingBytes) ∧
    (∀ (b0 : Reader) (m : Nat), b0.source = none → b0.rawRead m = none) := by
  constructor
  · rcases hsr : srcRead s n with ⟨chunk, e1, s1⟩
    have hstep : b.rawRead n = some (chunk, e1,
        { b with source := some s1, pos := b.pos + chunk.length }) := by
      unfold Reader.rawRead
      rw [hs]
      dsimp only
      rw [hsr]
    have hpfx : chunk <+: s.data := by
      have hp : (srcRead s n).1 <+: s.data := by
        unfold srcRead
        cases s.data with
        | nil => simp
        | cons a as => exact List.take_prefix _ _
      rw [hsr] at hp
      exact hp
    have hfast := readBytes_fast
      ({ b with source := some s1, pos := b.pos + chunk.length }) s1 rfl
      b.numUnusedPeekedBytes (by omega) hpend (Nat.le_refl _)
    refine ⟨chunk, e1, _, hstep, hpfx, rfl, rfl, ?_, ?_⟩
    · rw [hfast]
    · rw [hfast]
      exact pend_eq b
  · intro b0 m h0
    unfold Reader.rawRead
    rw [h0]

/-! ### Witnesses -/

/-- Witness for C1 at a concrete five-byte source with `N = 3`. -/
theorem c1_peek_then_read_witness :
    (NewReaderBytes [1, 2, 3, 4, 5] (some .le)).WF ∧
    (NewReaderBytes [1, 2, 3, 4, 5] (some .le)).source
      = some ⟨[1, 2, 3, 4, 5], []⟩ ∧
    3 ≤ (NewReaderBytes [1, 2, 3, 4, 5] (some .le)).avail ∧
    (((NewReaderBytes [1, 2, 3, 4, 5] (some .le)).peek 3).1 = none ∧
     ((((NewReaderBytes [1, 2, 3, 4, 5] (some .le)).peek 3).2.2).readBytes
        3).1 = none ∧
     ((((NewReaderBytes [1, 2, 3, 4, 5] (some .le)).peek 3).2.2).readBytes
        3).2.1 = ((NewReaderBytes [1, 2, 3, 4, 5] (some .le)).peek 3).2.1 ∧
     (((((NewReaderBytes [1, 2, 3, 4, 5] (some .le)).peek 3).2.2).readBytes
        3).2.2).pos = (NewReaderBytes [1, 2, 3, 4, 5] (some .le)).pos + 3) :=
  ⟨by decide, rfl, by decide,
   c1_peek_then_read (NewReaderBytes [1, 2, 3, 4, 5] (some .le))
     ⟨[1, 2, 3, 4, 5], []⟩ 3 (by decide) rfl (by decide)⟩

/-- Witness for C2 at the position example of the specification: discard
4, read a byte, a 16-bit value, peek 9, a 32-bit value, and 3 raw bytes,
totalling 14 consumed bytes. -/
theorem c2_position_invariant_witness :
    (NewReaderBytes (List.range 40) (some .le)).WF ∧
    ((((NewReaderBytes (List.range 40) (some .le)).runOps
        [.discard 4, .readByte, .readUint16, .peek 9, .readUint32,
         .readBytes 3]).2).getPosition
      = (NewReaderBytes (List.range 40) (some .le)).getPosition
        + (((NewReaderBytes (List.range 40) (some .le)).runOps
            [.discard 4, .readByte, .readUint16, .peek 9, .readUint32,
             .readBytes 3]).1 : Int) ∧
     ((Reader.peek ⟨5, some .le, some ⟨[1, 2, 3], []⟩,
         List.replicate 64 0, 0, 0⟩ 2).2.2).getPosition
       = Reader.getPosition ⟨5, some .le, some ⟨[1, 2, 3], []⟩,
           List.replicate 64 0, 0, 0⟩) :=
  ⟨by decide,
   c2_position_invariant (NewReaderBytes (List.range 40) (some .le))
     (by decide)
     [.discard 4, .readByte, .readUint16, .peek 9, .readUint32,
      .readBytes 3]
     ⟨5, some .le, some ⟨[1, 2, 3], []⟩, List.replicate 64 0, 0, 0⟩ 2⟩

/-- Witness for the amended C3 at a sink that accepts one of two bytes. -/
theorem c3_write_no_retry_witness :
    (⟨0, none, some ⟨[], [(1, none)]⟩⟩ : Writer).dest
      = some ⟨[], [(1, none)]⟩ ∧
    ([7, 7] : List Byte) ≠ [] ∧
    (Writer.writeBytes ⟨0, none, some ⟨[], [(1, none)]⟩⟩ [7, 7]
      = ((Sink.write ⟨[], [(1, none)]⟩ [7, 7]).2.1,
         { (⟨0, none, some ⟨[], [(1, none)]⟩⟩ : Writer) with
             pos := 0 + (Sink.write ⟨[], [(1, none)]⟩ [7, 7]).1,
             dest := some (Sink.write ⟨[], [(1, none)]⟩ [7, 7]).2.2 }) ∧
     ((Sink.write ⟨[], [(1, none)]⟩ [7, 7]).2.2).accepted
       = [] ++ List.take (Sink.write ⟨[], [(1, none)]⟩ [7, 7]).1 [7, 7] ∧
     (Sink.write ⟨[], [(1, none)]⟩ [7, 7]).1 ≤ ([7, 7] : List Byte).length) :=
  ⟨rfl, by decide,
   c3_write_no_retry ⟨0, none, some ⟨[], [(1, none)]⟩⟩
     ⟨[], [(1, none)]⟩ [7, 7] rfl (by decide)⟩

/-- Witness for the amended C4 at an exhausted (but set) source and an
unset source. -/
theorem c4_zero_length_reads_witness :
    (NewReaderBytes [] (some .le)).source = some ⟨[], []⟩ ∧
    (⟨0, none, none, List.replicate 64 0, 0, 0⟩ : Reader).source = none ∧
    ((NewReaderBytes [] (some .le)).readBytes 0
       = (none, [], NewReaderBytes [] (some .le)) ∧
     (NewReaderBytes [] (some .le)).peek 0
       = (none, [], NewReaderBytes [] (some .le)) ∧
     Reader.readBytes ⟨0, none, none, List.replicate 64 0, 0, 0⟩ 0
       = (some .nilSource, [], ⟨0, none, none, List.replicate 64 0, 0, 0⟩) ∧
     Reader.peek ⟨0, none, none, List.replicate 64 0, 0, 0⟩ 0
       = (some .nilSource, [], ⟨0, none, none, List.replicate 64 0, 0, 0⟩)) :=
  ⟨rfl, rfl,
   c4_zero_length_reads (NewReaderBytes [] (some .le)) ⟨[], []⟩ rfl
     ⟨0, none, none, List.replicate 64 0, 0, 0⟩ rfl⟩

/-- Witness for the amended C5 at a reader with one pending byte over an
exhausted source, peeking three bytes. -/
theorem c5_peek_failure_state_witness :
    (⟨0, none, some ⟨[], []⟩, 9 :: List.replicate 63 0, 1, 0⟩ : Reader).WF ∧
    (⟨0, none, some ⟨[], []⟩, 9 :: List.replicate 63 0, 1, 0⟩
        : Reader).source = some ⟨[], []⟩ ∧
    0 < (⟨0, none, some ⟨[], []⟩, 9 :: List.replicate 63 0, 1, 0⟩
        : Reader).numUnusedPeekedBytes ∧
    (⟨0, none, some ⟨[], []⟩, 9 :: List.replicate 63 0, 1, 0⟩
        : Reader).numUnusedPeekedBytes < 3 ∧
    (⟨0, none, some ⟨[], []⟩, 9 :: List.replicate 63 0, 1, 0⟩
        : Reader).avail < 3 ∧
    ((Reader.peek ⟨0, none, some ⟨[], []⟩, 9 :: List.replicate 63 0, 1, 0⟩
        3).1 = some (if ([] : List Byte).length = 0 then .eof
                     else .unexpectedEOF) ∧
     ((Reader.peek ⟨0, none, some ⟨[], []⟩, 9 :: List.replicate 63 0, 1, 0⟩
        3).2.2).peekPos = 0 ∧
     ((Reader.peek ⟨0, none, some ⟨[], []⟩, 9 :: List.replicate 63 0, 1, 0⟩
        3).2.2).nPeeked = 1 ∧
     ((Reader.peek ⟨0, none, some ⟨[], []⟩, 9 :: List.replicate 63 0, 1, 0⟩
        3).2.2).pendingBytes
       = (⟨0, none, some ⟨[], []⟩, 9 :: List.replicate 63 0, 1, 0⟩
            : Reader).pendingBytes ∧
     ((Reader.peek ⟨0, none, some ⟨[], []⟩, 9 :: List.replicate 63 0, 1, 0⟩
        3).2.2).pos = 0) :=
  ⟨by decide, rfl, by decide, by decide, by decide,
   c5_peek_failure_state
     ⟨0, none, some ⟨[], []⟩, 9 :: List.replicate 63 0, 1, 0⟩ ⟨[], []⟩
     (by decide) rfl 3 (by decide) (by decide) (by decide)⟩

/-- Witness for C6 at a five-byte source with peek lengths 2 then 4. -/
theorem c6_peek_idempotent_witness :
    (NewReaderBytes [1, 2, 3, 4, 5] (some .le)).WF ∧
    (NewReaderBytes [1, 2, 3, 4, 5] (some .le)).source
      = some ⟨[1, 2, 3, 4, 5], []⟩ ∧
    2 ≤ (NewReaderBytes [1, 2, 3, 4, 5] (some .le)).avail ∧
    4 ≤ (NewReaderBytes [1, 2, 3, 4, 5] (some .le)).avail ∧
    (((NewReaderBytes [1, 2, 3, 4, 5] (some .le)).peek 2).1 = none ∧
     ((((NewReaderBytes [1, 2, 3, 4, 5] (some .le)).peek 2).2.2).peek 4).1
       = none ∧
     (((NewReaderBytes [1, 2, 3, 4, 5] (some .le)).peek 2).2.1).take 4
       = (((((NewReaderBytes [1, 2, 3, 4, 5] (some .le)).peek
             2).2.2).peek 4).2.1).take 2 ∧
     (2 ≤ 4 → ((NewReaderBytes [1, 2, 3, 4, 5] (some .le)).peek 2).2.1
       <+: ((((NewReaderBytes [1, 2, 3, 4, 5] (some .le)).peek
              2).2.2).peek 4).2.1)) :=
  ⟨by decide, rfl, by decide, by decide,
   c6_peek_idempotent (NewReaderBytes [1, 2, 3, 4, 5] (some .le))
     ⟨[1, 2, 3, 4, 5], []⟩ (by decide) rfl 2 4 (by decide) (by decide)⟩

/-- Witness for the amended C7 at an unset-source reader. -/
theorem c7_nil_source_behavior_witness :
    (⟨0, none, none, List.replicate 64 0, 0, 0⟩ : Reader).source = none ∧
    (Reader.readBytes ⟨0, none, none, List.replicate 64 0, 0, 0⟩ 5
       = (some .nilSource, [], ⟨0, none, none, List.replicate 64 0, 0, 0⟩) ∧
     Reader.peek ⟨0, none, none, List.replicate 64 0, 0, 0⟩ 5
       = (some .nilSource, [], ⟨0, none, none, List.replicate 64 0, 0, 0⟩) ∧
     Reader.discard ⟨0, none, none, List.replicate 64 0, 0, 0⟩ 5
       = (some .nilSource, 0, ⟨0, none, none, List.replicate 64 0, 0, 0⟩) ∧
     Reader.readByte ⟨0, none, none, List.replicate 64 0, 0, 0⟩
       = (.error .nilSource, 0, ⟨0, none, none, List.replicate 64 0, 0, 0⟩) ∧
     Reader.readUint16 ⟨0, none, none, List.replicate 64 0, 0, 0⟩
       = (.error .nilSource, 0, ⟨0, none, none, List.replicate 64 0, 0, 0⟩) ∧
     Reader.readUint32 ⟨0, none, none, List.replicate 64 0, 0, 0⟩
       = (.error .nilSource, 0, ⟨0, none, none, List.replicate 64 0, 0, 0⟩) ∧
     Reader.readUint64 ⟨0, none, none, List.replicate 64 0, 0, 0⟩
       = (.error .nilSource, 0, ⟨0, none, none, List.replicate 64 0, 0, 0⟩) ∧
     Reader.readFloat32 ⟨0, none, none, List.replicate 64 0, 0, 0⟩
       = (.error .nilSource, 0, ⟨0, none, none, List.replicate 64 0, 0, 0⟩) ∧
     Reader.readFloat64 ⟨0, none, none, List.replicate 64 0, 0, 0⟩
       = (.error .nilSource, 0, ⟨0, none, none, List.replicate 64 0, 0, 0⟩) ∧
     Reader.rawRead ⟨0, none, none, List.replicate 64 0, 0, 0⟩ 2 = none) :=
  ⟨rfl,
   c7_nil_source_behavior ⟨0, none, none, List.replicate 64 0, 0, 0⟩ rfl
     5 2⟩

/-- Witness for C8 at a capturing sink and the chunk-spanning count
2500. -/
theorem c8_zero_fill_witness :
    (⟨0, none, some ⟨[], []⟩⟩ : Writer).dest = some ⟨[], []⟩ ∧
    (((2500 : Int) < 0 →
       Writer.zeroFill ⟨0, none, some ⟨[], []⟩⟩ 2500
         = (some .negativeLength, ⟨0, none, some ⟨[], []⟩⟩)) ∧
     ((2500 : Int) = 0 →
       Writer.zeroFill ⟨0, none, some ⟨[], []⟩⟩ 2500
         = (none, ⟨0, none, some ⟨[], []⟩⟩)) ∧
     ((0 : Int) < 2500 →
       Writer.zeroFill ⟨0, none, some ⟨[], []⟩⟩ 2500
         = (none, { (⟨0, none, some ⟨[], []⟩⟩ : Writer) with
              pos := 0 + (2500 : Int),
              dest := some ⟨[] ++ List.replicate (2500 : Int).toNat 0,
                            []⟩ }))) :=
  ⟨rfl, c8_zero_fill ⟨0, none, some ⟨[], []⟩⟩ [] rfl 2500⟩

/-- Witness for C9 at little-endian order, value 1234 and the bit pattern
of the float 1.0. -/
theorem c9_roundtrip_witness :
    (1234 : Nat) < 4294967296 ∧
    (4607182418800017408 : Nat) < 18446744073709551616 ∧
    (((NewWriterSink ⟨[], []⟩ (some .le)).writeUint32 1234).1 = none ∧
     ((NewWriterSink ⟨[], []⟩ (some .le)).writeUint32 1234).2.pos = 4 ∧
     ((NewWriterSink ⟨[], []⟩ (some .le)).writeUint32 1234).2.dest
       = some ⟨ByteOrder.le.putUint32 1234, []⟩ ∧
     (NewReaderBytes (ByteOrder.le.putUint32 1234)
        (some .le)).readUint32.1 = Except.ok 1234 ∧
     ((NewWriterSink ⟨[], []⟩
        (some .le)).writeFloat64 4607182418800017408).1 = none ∧
     ((NewWriterSink ⟨[], []⟩
        (some .le)).writeFloat64 4607182418800017408).2.pos = 8 ∧
     ((NewWriterSink ⟨[], []⟩
        (some .le)).writeFloat64 4607182418800017408).2.dest
       = some ⟨ByteOrder.le.putUint64 4607182418800017408, []⟩ ∧
     (NewReaderBytes (ByteOrder.le.putUint64 4607182418800017408)
        (some .le)).readFloat64.1 = Except.ok 4607182418800017408) :=
  ⟨by decide, by decide,
   c9_roundtrip .le 1234 4607182418800017408 (by decide) (by decide)⟩

/-- Witness for C10 at a reader with one pending byte and three source
bytes. -/
theorem c10_raw_read_bypasses_peek_witness :
    (⟨0, none, some ⟨[5, 6, 7], []⟩, 9 :: List.replicate 63 0, 1, 0⟩
        : Reader).WF ∧
    (⟨0, none, some ⟨[5, 6, 7], []⟩, 9 :: List.replicate 63 0, 1, 0⟩
        : Reader).source = some ⟨[5, 6, 7], []⟩ ∧
    0 < (⟨0, none, some ⟨[5, 6, 7], []⟩, 9 :: List.replicate 63 0, 1, 0⟩
        : Reader).numUnusedPeekedBytes ∧
    ((∃ chunk e1 b1,
        Reader.rawRead ⟨0, none, some ⟨[5, 6, 7], []⟩,
            9 :: List.replicate 63 0, 1, 0⟩ 2 = some (chunk, e1, b1) ∧
        chunk <+: [5, 6, 7] ∧
        b1.pos = (⟨0, none, some ⟨[5, 6, 7], []⟩,
            9 :: List.replicate 63 0, 1, 0⟩ : Reader).pos + chunk.length ∧
        b1.pendingBytes
          = (⟨0, none, some ⟨[5, 6, 7], []⟩, 9 :: List.replicate 63 0, 1, 0⟩
              : Reader).pendingBytes ∧
        (b1.readBytes (⟨0, none, some ⟨[5, 6, 7], []⟩,
            9 :: List.replicate 63 0, 1, 0⟩
              : Reader).numUnusedPeekedBytes).1 = none ∧
        (b1.readBytes (⟨0, none, some ⟨[5, 6, 7], []⟩,
            9 :: List.replicate 63 0, 1, 0⟩
              : Reader).numUnusedPeekedBytes).2.1
          = (⟨0, none, some ⟨[5, 6, 7], []⟩, 9 :: List.replicate 63 0, 1, 0⟩
              : Reader).pendingBytes) ∧
     (∀ (b0 : Reader) (m : Nat), b0.source = none → b0.rawRead m = none)) :=
  ⟨by decide, rfl, by decide,
   c10_raw_read_bypasses_peek
     ⟨0, none, some ⟨[5, 6, 7], []⟩, 9 :: List.replicate 63 0, 1, 0⟩
     ⟨[5, 6, 7], []⟩ (by decide) rfl (by decide) 2⟩

end Bin

